import Mathlib

/-!
Shallow embedding of the hybrid retrieval and ranking core of the
ScholarSearch repository (`src/app/services/bm25_service.py` and the
fusion / orchestration functions of `src/app/main.py`), together with
proofs checking the natural-language specification against it.

Modelling conventions:
* Python `dict`s are modelled as association lists with insertion-order
  semantics: setting an existing key replaces its value in place, setting a
  fresh key appends at the end (`dictSet`).  Lookups take the first match.
* Python `float` arithmetic is modelled as exact arithmetic: `ℚ` where the
  code only adds/multiplies/divides rationals, and `ℝ` where `math.log`
  enters (BM25 idf).
* Python's Unicode-aware `\w` character class (used by the tokenizer's
  regex via `\b`) is modelled as: ASCII alphanumerics, underscore, and any
  code point above 127.  All inputs appearing in the claims are ASCII.
* The fallible semantic channel (`chroma_service.query`) is an explicit
  `Except` parameter of the orchestrator; raising in Python corresponds to
  the `.error` case.  The Redis cache layer is out of the specified core
  ("the core is cache-agnostic") and a cache miss is assumed.
-/

/-- First-match lookup in an association list (Python `d[k]` / `d.get(k)`). -/
def alookup {K V : Type} [DecidableEq K] (k : K) : List (K × V) → Option V
  | [] => none
  | (k', v) :: rest => if k = k' then some v else alookup k rest

/-- Python `d[k] = v` on a `dict`: replace in place if the key is present,
otherwise append at the end (insertion order is preserved). -/
def dictSet {K V : Type} [DecidableEq K] (k : K) (v : V) : List (K × V) → List (K × V)
  | [] => [(k, v)]
  | (k', v') :: rest => if k = k' then (k, v) :: rest else (k', v') :: dictSet k v rest

/-- Word characters of the tokenizer regex `\b[a-zA-Z]+\b`: Python's `\w`
(ASCII alphanumerics, underscore; non-ASCII code points conservatively
treated as word characters). -/
def isWordChar (c : Char) : Bool := c.isAlphanum || c == '_' || 127 < c.toNat

/-- Maximal runs of word characters, accumulator-passing version. -/
def wordRunsAux : List Char → List Char → List (List Char)
  | [], acc => if acc.isEmpty then [] else [acc.reverse]
  | c :: cs, acc =>
    if isWordChar c then
      wordRunsAux cs (c :: acc)
    else if acc.isEmpty then
      wordRunsAux cs []
    else
      acc.reverse :: wordRunsAux cs []

/-- Maximal runs of word characters of a character list. -/
def wordRuns (cs : List Char) : List (List Char) := wordRunsAux cs []

/-- The fixed stop-word set of `BM25Service._tokenize`. -/
def stopWords : List String :=
  ["the", "a", "an", "and", "or", "but", "in", "on", "at", "to", "for",
   "of", "with", "by", "is", "are", "was", "were", "be", "been", "being",
   "have", "has", "had", "do", "does", "did", "will", "would", "could",
   "should", "may", "might", "can", "this", "that", "these", "those"]

/-- `BM25Service._tokenize`: lowercase, extract maximal alphabetic runs
(`re.findall(r'\b[a-zA-Z]+\b', text.lower())`), drop stop words and tokens
of length ≤ 2.  A run of word characters matches the regex exactly when it
consists of letters only. -/
def tokenize (text : String) : List String :=
  let lowered := text.data.map Char.toLower
  let runs := wordRuns lowered
  let alphaRuns := runs.filter (fun r => r.all Char.isAlpha)
  let toks := alphaRuns.map (fun r => String.mk r)
  toks.filter (fun t => !stopWords.contains t && t.length > 2)

/-- The fields of the `Paper` ORM model consumed by the search core.
`n_citation` is an integer column (default 0) that the orchestration code
defensively treats as possibly missing (`paper.n_citation or 0`). -/
structure Paper where
  id : String
  title : Option String
  abstract : Option String
  nCitation : Option Int
  isStub : Bool
deriving DecidableEq

/-- The text payload indexed for a paper:
`f"{paper.title or ''} {paper.abstract or ''}"`. -/
def paperText (p : Paper) : String :=
  (p.title.getD "") ++ " " ++ (p.abstract.getD "")

/-- Per-term postings: internal document position ↦ occurrence count. -/
abbrev TermFreq := List (String × List (Nat × Nat))

/-- Per-term containing-document count. -/
abbrev DocFreq := List (String × Nat)

/-- The in-memory state of `BM25Service`. -/
structure BM25Index where
  documents : List (List String)
  paperIds : List String
  docLengths : List Nat
  avgDocLength : ℚ
  termFreq : TermFreq
  docFreq : DocFreq
  totalDocs : Nat
  k1 : ℚ
  b : ℚ
deriving DecidableEq

/-- Python-`dict` token counting (`term_counts` in the source): keys in
first-occurrence order, values are occurrence counts. -/
def countTokens (tokens : List String) : List (String × Nat) :=
  tokens.foldl (fun d t => dictSet t ((alookup t d).getD 0 + 1) d) []

/-- `BM25Service._update_indexes_for_paper` restricted to the two maps:
fold the token-count map of the document at position `pos` into
`term_freq` / `doc_freq`. -/
def applyDoc (pos : Nat) (tokens : List String) (tf : TermFreq) (df : DocFreq) :
    TermFreq × DocFreq :=
  (countTokens tokens).foldl
    (fun p item =>
      (dictSet item.1 (dictSet pos item.2 ((alookup item.1 p.1).getD [])) p.1,
       dictSet item.1 ((alookup item.1 p.2).getD 0 + 1) p.2))
    (tf, df)

/-- `BM25Service._build_term_indexes`: rebuild both maps from scratch from
the enumerated document list. -/
def buildTermIndexes (docs : List (List String)) : TermFreq × DocFreq :=
  docs.enum.foldl (fun p it => applyDoc it.1 it.2 p.1 p.2) ([], [])

/-- Corpus mean used by the source whenever it recomputes
`avg_doc_length` on a non-empty corpus. -/
def meanLength (docLengths : List Nat) : ℚ :=
  (docLengths.sum : ℚ) / (docLengths.length : ℚ)

/-- `BM25Service._build_index` over a given corpus snapshot (the database
query `filter_by(is_stub=False)` is the filter on the snapshot list). -/
def buildIndex (papers : List Paper) (k1 b : ℚ) : BM25Index :=
  let live := papers.filter (fun p => !p.isStub)
  let documents := live.map (fun p => tokenize (paperText p))
  let paperIds := live.map (fun p => p.id)
  let docLengths := documents.map List.length
  let avg : ℚ := if docLengths.isEmpty then 0 else meanLength docLengths
  let tfdf := buildTermIndexes documents
  ⟨documents, paperIds, docLengths, avg, tfdf.1, tfdf.2, documents.length, k1, b⟩

/-- `BM25Service.add_paper`: append the document at the next internal
position, recompute the average length, incrementally update the maps. -/
def addPaper (idx : BM25Index) (p : Paper) : BM25Index :=
  let tokens := tokenize (paperText p)
  let documents := idx.documents ++ [tokens]
  let paperIds := idx.paperIds ++ [p.id]
  let docLengths := idx.docLengths ++ [tokens.length]
  let avg := meanLength docLengths
  let tfdf := applyDoc (documents.length - 1) tokens idx.termFreq idx.docFreq
  ⟨documents, paperIds, docLengths, avg, tfdf.1, tfdf.2, documents.length, idx.k1, idx.b⟩

/-- `BM25Service.remove_paper`: locate the first occurrence of the
identifier (`list.index`), delete the three parallel entries, rebuild both
term maps from the remaining documents, and recompute the average length
only when documents remain (`if self.doc_lengths:`).  An unknown
identifier is a logged no-op (`except ValueError`). -/
def removePaper (idx : BM25Index) (paperId : String) : BM25Index :=
  match idx.paperIds.findIdx? (fun i => i = paperId) with
  | none => idx
  | some k =>
    let documents := idx.documents.eraseIdx k
    let paperIds := idx.paperIds.eraseIdx k
    let docLengths := idx.docLengths.eraseIdx k
    let tfdf := buildTermIndexes documents
    let avg := if docLengths.isEmpty then idx.avgDocLength else meanLength docLengths
    ⟨documents, paperIds, docLengths, avg, tfdf.1, tfdf.2, documents.length, idx.k1, idx.b⟩

/-- `BM25Service.update_paper`: remove then add, no partial-update path. -/
def updatePaper (idx : BM25Index) (p : Paper) : BM25Index :=
  addPaper (removePaper idx p.id) p

/-- The index built by the service constructor on an empty corpus. -/
def emptyIndex : BM25Index := buildIndex [] (6/5) (3/4)

/-- `BM25Service._calculate_idf`: `0` for unknown terms, otherwise
`ln((N + 1) / (df + 1))` with `N = total_docs`. -/
noncomputable def calculateIdf (idx : BM25Index) (term : String) : ℝ :=
  match alookup term idx.docFreq with
  | none => 0
  | some df => Real.log (((idx.totalDocs : ℝ) + 1) / ((df : ℝ) + 1))

/-- `BM25Service._calculate_bm25_score`: accumulate the BM25 contribution
of every query term occurring both in the index and in the document. -/
noncomputable def calculateBm25Score (idx : BM25Index) (pos : Nat)
    (queryTerms : List String) : ℝ :=
  queryTerms.foldl
    (fun score term =>
      match alookup term idx.termFreq with
      | none => score
      | some postings =>
        match alookup pos postings with
        | none => score
        | some tf =>
          let docLength : ℝ := (idx.docLengths.getD pos 0 : ℝ)
          let idf := calculateIdf idx term
          let numerator : ℝ := (tf : ℝ) * ((idx.k1 : ℝ) + 1)
          let denominator : ℝ :=
            (tf : ℝ) + (idx.k1 : ℝ) *
              (1 - (idx.b : ℝ) + (idx.b : ℝ) * (docLength / (idx.avgDocLength : ℝ)))
          score + idf * (numerator / denominator))
    0

/-- Stable insertion step for descending sort: `x` is placed before the
first element it strictly beats, i.e. after every earlier element with an
equal or better key — the placement produced by Python's stable
`list.sort(key=..., reverse=True)`. -/
def insertDescBy {α : Type} (gt : α → α → Bool) (x : α) : List α → List α
  | [] => [x]
  | y :: ys => if gt x y then x :: y :: ys else y :: insertDescBy gt x ys

/-- Stable descending sort (insertion sort; stable sorts by the same key
agree, so this has the same output as Python's stable sort). -/
def sortDescBy {α : Type} (gt : α → α → Bool) (l : List α) : List α :=
  l.foldl (fun acc x => insertDescBy gt x acc) []

/-- One entry of the list returned by `BM25Service.search` (the internal
document position is kept alongside the response fields). -/
structure SearchHit where
  pos : Nat
  paperId : String
  score : ℝ
  rank : Nat

/-- `BM25Service.search`: tokenize the query (empty ⇒ empty result), score
every document, keep strictly positive scores, sort descending by score
(stable), truncate to `limit`, attach 1-based ranks, and resolve each
paper through the database (`db`); unresolved identifiers are skipped. -/
noncomputable def bm25Search (idx : BM25Index) (db : String → Option Paper)
    (query : String) (limit : Nat) : List SearchHit :=
  let queryTerms := tokenize query
  if queryTerms.isEmpty then []
  else
    let scores := (List.range idx.documents.length).filterMap
      (fun pos =>
        let s := calculateBm25Score idx pos queryTerms
        if 0 < s then some (pos, s) else none)
    let sorted := sortDescBy (fun a b => decide (b.2 < a.2)) scores
    let top := sorted.take limit
    top.enum.filterMap
      (fun it =>
        (db (idx.paperIds.getD it.2.1 "")).map
          (fun p => ⟨it.2.1, p.id, it.2.2, it.1 + 1⟩))

/-- A lexical candidate as consumed by `combine_bm25_and_bert`: the
`paper_id`, `score` and `rank` fields of a BM25 search result.  The score
type is a parameter because fusion only passes it through. -/
structure BmEntry (α : Type) where
  paperId : String
  score : α
  rank : Nat
deriving DecidableEq

/-- One fused candidate produced by `combine_bm25_and_bert`. -/
structure Combined (α : Type) where
  paperId : String
  hybridScore : ℚ
  bm25Score : Option α
  bertScore : Option ℚ
  bm25Rank : Nat
  bertRank : Nat
  bm25Rrf : ℚ
  bertRrf : ℚ
deriving DecidableEq

/-- The `bm25_lookup` dict of `combine_bm25_and_bert`: paper id ↦ result
entry (later entries overwrite earlier ones, insertion order kept). -/
def bm25LookupOf {α : Type} (bm25Results : List (BmEntry α)) : List (String × BmEntry α) :=
  bm25Results.foldl (fun d r => dictSet r.paperId r d) []

/-- The `bert_lookup` dict of `combine_bm25_and_bert`: paper id ↦
(distance, 1-based rank), guarded by `idx < len(bert_distances)`. -/
def bertLookupOf (bertIds : List String) (bertDistances : List ℚ) :
    List (String × (ℚ × Nat)) :=
  bertIds.enum.foldl
    (fun d it =>
      if it.1 < bertDistances.length then
        dictSet it.2 (bertDistances.getD it.1 0, it.1 + 1) d
      else d)
    []

/-- The `all_papers` set union of `combine_bm25_and_bert`, in the
deterministic order "lexical keys first, then new semantic keys" (the
Python `set` iteration order is unspecified and no claim depends on it). -/
def allPapersOf {α : Type} (bm25Results : List (BmEntry α)) (bertIds : List String)
    (bertDistances : List ℚ) : List String :=
  let bmKeys := (bm25LookupOf bm25Results).map (fun e => e.1)
  bmKeys ++ ((bertLookupOf bertIds bertDistances).map (fun e => e.1)).filter
    (fun i => !bmKeys.contains i)

/-- The per-identifier body of the fusion loop of `combine_bm25_and_bert`. -/
def fuseOne {α : Type} (bm25Results : List (BmEntry α)) (bertIds : List String)
    (bertDistances : List ℚ) (bertWeight : ℚ) (pid : String) : Combined α :=
  let bmData := alookup pid (bm25LookupOf bm25Results)
  let bertData := alookup pid (bertLookupOf bertIds bertDistances)
  let bm25Rank := (bmData.map (fun e => e.rank)).getD (bm25Results.length + 1)
  let bertRank := (bertData.map (fun e => e.2)).getD (bertIds.length + 1)
  let bm25Rrf : ℚ := 1 / (60 + (bm25Rank : ℚ))
  let bertRrf : ℚ := 1 / (60 + (bertRank : ℚ))
  ⟨pid, bm25Rrf + bertRrf * bertWeight, bmData.map (fun e => e.score),
   bertData.map (fun e => e.1), bm25Rank, bertRank, bm25Rrf, bertRrf⟩

/-- `combine_bm25_and_bert`: weighted reciprocal rank fusion — score every
identifier of the union, sort descending by hybrid score (stable), and
truncate to `limit`. -/
def combineBm25AndBert {α : Type} (bm25Results : List (BmEntry α))
    (bertIds : List String) (bertDistances : List ℚ) (limit : Nat)
    (bertWeight : ℚ) : List (Combined α) :=
  let combined := (allPapersOf bm25Results bertIds bertDistances).map
    (fuseOne bm25Results bertIds bertDistances bertWeight)
  (sortDescBy (fun a b => decide (b.hybridScore < a.hybridScore)) combined).take limit

/-- One entry of the final response list built by `search_papers`
(metadata fields other than `n_citation` omitted; `hybridScore` keeps the
fused score that the source reads from `result["hybrid_score"]`). -/
structure FinalEntry where
  paperId : String
  nCitation : Option Int
  score : ℚ
  hybridScore : ℚ
  citationBoost : ℚ
  citationNormalized : ℚ
  searchType : String
deriving DecidableEq

/-- The papers fetched from the database for the fused candidates
(`db.query(Paper).filter(Paper.id.in_(paper_ids))`; identifiers missing
from the database are dropped). -/
def fetchedPapersOf {α : Type} (db : String → Option Paper) (combined : List (Combined α)) :
    List Paper :=
  combined.filterMap (fun r => db r.paperId)

/-- The non-null citation counts of the fetched papers
(`[p.n_citation for p in papers if p.n_citation is not None]`). -/
def citationCountsOf {α : Type} (db : String → Option Paper) (combined : List (Combined α)) :
    List Int :=
  (fetchedPapersOf db combined).filterMap (fun p => p.nCitation)

/-- `max(citation_counts) if citation_counts else 1`. -/
def maxCitationsOf {α : Type} (db : String → Option Paper) (combined : List (Combined α)) :
    Int :=
  match citationCountsOf db combined with
  | [] => 1
  | c :: cs => cs.foldl max c

/-- `min(citation_counts) if citation_counts else 0`. -/
def minCitationsOf {α : Type} (db : String → Option Paper) (combined : List (Combined α)) :
    Int :=
  match citationCountsOf db combined with
  | [] => 0
  | c :: cs => cs.foldl min c

/-- The per-result body of the final loop of `search_papers`: min-max
normalization of the citation count, then either citation-only scoring
(`citation_weight >= 1.0`) or the hybrid score plus the scaled citation
boost. -/
def buildFinal {α : Type} (minCitations maxCitations : Int) (citationWeight : ℚ)
    (r : Combined α) (p : Paper) : FinalEntry :=
  let citationCount : Int := (p.nCitation).getD 0
  let citationNormalized : ℚ :=
    if minCitations < maxCitations then
      ((citationCount : ℚ) - (minCitations : ℚ)) / ((maxCitations : ℚ) - (minCitations : ℚ))
    else 0
  if 1 ≤ citationWeight then
    ⟨p.id, p.nCitation, (citationCount : ℚ), r.hybridScore,
     (citationCount : ℚ), citationNormalized, "citation-only-sorting"⟩
  else
    let citationBoost := citationNormalized * citationWeight * (1/20)
    ⟨p.id, p.nCitation, r.hybridScore + citationBoost, r.hybridScore,
     citationBoost, citationNormalized, "hybrid-bm25-bert-citations"⟩

/-- The citation-blending tail of `search_papers`: fetch the papers of the
fused candidates, min-max-normalize citation counts over the fetched
result set, build each final entry, and re-sort by final score
(descending, stable). -/
def finalizeResults {α : Type} (db : String → Option Paper)
    (combined : List (Combined α)) (citationWeight : ℚ) : List FinalEntry :=
  let finalResults := combined.filterMap
    (fun r => (db r.paperId).map
      (buildFinal (minCitationsOf db combined) (maxCitationsOf db combined) citationWeight r))
  sortDescBy (fun a b => decide (b.score < a.score)) finalResults

/-- The request body of `POST /api/v1/search`. -/
structure SearchPayload where
  query : String
  page : Nat
  size : Nat
  bertWeight : ℚ
  citationWeight : ℚ

/-- The response of `search_papers` (response fields the claims are
about). -/
structure SearchResponse where
  query : String
  totalResults : Nat
  page : Nat
  size : Nat
  results : List FinalEntry
  searchType : String
  cached : Bool

/-- The `search_papers` endpoint on a cache miss.  The semantic channel is
the `chroma` argument: `.ok groups` models a successful
`chroma_service.query` response (`ids` / `distances` group lists), and
`.error` models the call raising.  The endpoint's `except Exception`
handler turns any uncaught exception into `HTTPException(status_code=500)`,
modelled as `Except.error 500`; no handler around the chroma call catches
its failure first. -/
noncomputable def searchPapers (idx : BM25Index) (db : String → Option Paper)
    (chroma : Except String (List (List String) × List (List ℚ)))
    (payload : SearchPayload) : Except Nat SearchResponse :=
  let bm25Results := bm25Search idx db payload.query (payload.size * 2)
  match chroma with
  | .error _ => .error 500
  | .ok groups =>
    let matchedIds := groups.1.headD []
    let matchedDistances := groups.2.headD []
    let combined := combineBm25AndBert
      (bm25Results.map (fun h => ⟨h.paperId, h.score, h.rank⟩))
      matchedIds matchedDistances payload.size payload.bertWeight
    if combined.isEmpty then
      .ok ⟨payload.query, 0, 1, payload.size, [], "hybrid-bm25-bert-citations", false⟩
    else
      let finalResults := finalizeResults db combined payload.citationWeight
      let st := match finalResults with
        | [] => "hybrid-bm25-bert-citations"
        | e :: _ => e.searchType
      .ok ⟨payload.query, finalResults.length, 1, payload.size, finalResults, st, false⟩

/-! ### Association-list lemmas -/

theorem alookup_eq_none {K V : Type} [DecidableEq K] (k : K) (d : List (K × V)) :
    alookup k d = none ↔ k ∉ d.map Prod.fst := by
  induction d with
  | nil => simp [alookup]
  | cons e rest ih =>
    by_cases h : k = e.1
    · simp [alookup, h]
    · simp [alookup, h, ih]

theorem alookup_dictSet_self {K V : Type} [DecidableEq K] (k : K) (v : V) (d : List (K × V)) :
    alookup k (dictSet k v d) = some v := by
  induction d with
  | nil => simp [alookup, dictSet]
  | cons e rest ih =>
    by_cases h : k = e.1
    · simp [dictSet, h, alookup]
    · simp [dictSet, h, alookup, ih]

theorem alookup_dictSet_ne {K V : Type} [DecidableEq K] {k k' : K} (v : V) (d : List (K × V))
    (h : k ≠ k') : alookup k (dictSet k' v d) = alookup k d := by
  induction d with
  | nil => simp [alookup, dictSet, h]
  | cons e rest ih =>
    by_cases he : k' = e.1
    · subst he
      simp [dictSet, alookup, h]
    · by_cases hk : k = e.1
      · simp [dictSet, he, alookup, hk]
      · simp [dictSet, he, alookup, hk, ih]

theorem keys_dictSet_of_mem {K V : Type} [DecidableEq K] {k : K} (v : V) {d : List (K × V)}
    (h : k ∈ d.map Prod.fst) : (dictSet k v d).map Prod.fst = d.map Prod.fst := by
  induction d with
  | nil => simp at h
  | cons e rest ih =>
    by_cases he : k = e.1
    · simp [dictSet, he]
    · have h' : k ∈ rest.map Prod.fst := by
        rcases List.mem_cons.mp h with h1 | h2
        · exact absurd h1 he
        · exact h2
      simp [dictSet, he, ih h']

theorem keys_dictSet_of_absent {K V : Type} [DecidableEq K] {k : K} (v : V) {d : List (K × V)}
    (h : k ∉ d.map Prod.fst) : (dictSet k v d).map Prod.fst = d.map Prod.fst ++ [k] := by
  induction d with
  | nil => simp [dictSet]
  | cons e rest ih =>
    have he : k ≠ e.1 := fun hke => h (by simp [hke])
    have h' : k ∉ rest.map Prod.fst := fun hm => h (by simp [hm])
    simp [dictSet, he, ih h']

theorem length_dictSet_of_absent {K V : Type} [DecidableEq K] {k : K} (v : V) {d : List (K × V)}
    (h : k ∉ d.map Prod.fst) : (dictSet k v d).length = d.length + 1 := by
  have hlen := congrArg List.length (keys_dictSet_of_absent v h)
  simpa using hlen

theorem length_dictSet_of_mem {K V : Type} [DecidableEq K] {k : K} (v : V) {d : List (K × V)}
    (h : k ∈ d.map Prod.fst) : (dictSet k v d).length = d.length := by
  have hlen := congrArg List.length (keys_dictSet_of_mem v h)
  simpa using hlen

theorem nodup_keys_dictSet {K V : Type} [DecidableEq K] (k : K) (v : V) {d : List (K × V)}
    (h : (d.map Prod.fst).Nodup) : ((dictSet k v d).map Prod.fst).Nodup := by
  by_cases hk : k ∈ d.map Prod.fst
  · rwa [keys_dictSet_of_mem v hk]
  · rw [keys_dictSet_of_absent v hk]
    rw [List.nodup_append]
    exact ⟨h, List.nodup_singleton k, by simpa using hk⟩

theorem mem_dictSet {K V : Type} [DecidableEq K] {k : K} {v : V} {d : List (K × V)}
    (hd : (d.map Prod.fst).Nodup) {e : K × V} (h : e ∈ dictSet k v d) :
    e = (k, v) ∨ (e ∈ d ∧ e.1 ≠ k) := by
  induction d with
  | nil =>
    simp [dictSet] at h
    exact Or.inl h
  | cons f rest ih =>
    have hd' : (rest.map Prod.fst).Nodup := (List.nodup_cons.mp hd).2
    by_cases hf : k = f.1
    · subst hf
      rw [dictSet] at h
      simp only [if_pos rfl] at h
      rcases List.mem_cons.mp h with h1 | h2
      · exact Or.inl h1
      · refine Or.inr ⟨List.mem_cons_of_mem _ h2, fun hek => ?_⟩
        have : e.1 ∈ rest.map Prod.fst := List.mem_map_of_mem Prod.fst h2
        rw [hek] at this
        exact (List.nodup_cons.mp hd).1 this
    · rw [dictSet] at h
      simp only [if_neg hf] at h
      rcases List.mem_cons.mp h with h1 | h2
      · exact Or.inr ⟨by simp [h1], by rw [h1]; exact fun hc => hf hc.symm⟩
      · rcases ih hd' h2 with h' | h'
        · exact Or.inl h'
        · exact Or.inr ⟨List.mem_cons_of_mem _ h'.1, h'.2⟩

/-! ### Claim-side specification functions and concrete fixtures -/

/-- Corpus-wide mean of `doc_lengths` as the specification words it, with
the source's own empty-corpus convention (`_build_index` leaves the
average at `0` for an empty corpus). -/
def avgSpec (docLengths : List Nat) : ℚ :=
  if docLengths.isEmpty then 0 else meanLength docLengths

/-- Concrete fixture paper. -/
def paperA : Paper := ⟨"pA", some "Deep Learning Networks", none, some 5, false⟩

/-- Concrete fixture paper. -/
def paperB : Paper := ⟨"pB", some "Attention Mechanism Networks", none, some 10, false⟩

/-- Concrete fixture database resolving the two fixture papers. -/
def dbAB : String → Option Paper := fun i =>
  if i = "pA" then some paperA else if i = "pB" then some paperB else none

/-! ### C2 — tokenizer example -/

/-- C2 counterexample: the tokenizer does not map
"The Attention Is All You Need" to `["attention", "need"]` — the
stop-word set contains neither "all" nor "you", and both have length 3. -/
theorem tokenize_attention_ne_claimed :
    tokenize "The Attention Is All You Need" ≠ ["attention", "need"] := by
  decide

/-- C2 amended: the tokenizer maps "The Attention Is All You Need" to
`["attention", "all", "you", "need"]`: "the" and "is" are discarded as
stop words, while "all" and "you" are retained because they are not in
the stop-word set and have length 3 > 2; order is preserved. -/
theorem tokenize_attention_amended :
    tokenize "The Attention Is All You Need" = ["attention", "all", "you", "need"] ∧
    "the" ∈ stopWords ∧ "is" ∈ stopWords ∧
    "all" ∉ stopWords ∧ "you" ∉ stopWords ∧
    2 < "all".length ∧ 2 < "you".length := by
  decide

/-! ### C8 — average document length maintenance -/

/-- C8 counterexample: removing the last remaining document does not
recompute `avg_doc_length` (the guard `if self.doc_lengths:` skips the
update), so the average keeps its stale previous value 3 while the mean
over the now-empty membership is 0. -/
theorem avg_stale_after_last_removal :
    (removePaper (buildIndex [paperA] (6/5) (3/4)) "pA").avgDocLength ≠
      avgSpec (removePaper (buildIndex [paperA] (6/5) (3/4)) "pA").docLengths := by
  have h1 : (removePaper (buildIndex [paperA] (6/5) (3/4)) "pA").avgDocLength =
      meanLength [3] := rfl
  have h2 : (removePaper (buildIndex [paperA] (6/5) (3/4)) "pA").docLengths = [] := rfl
  rw [h1, h2]
  simp [avgSpec, meanLength]

/-- C8 amended: `avg_doc_length` equals the corpus mean of `doc_lengths`
after Build, Add and Update, and after a Remove that finds its identifier
and leaves at least one document; a Remove that empties the index keeps
the previous average unchanged, and a Remove of an unknown identifier
leaves the whole index unchanged. -/
theorem avg_doc_length_maintenance :
    (∀ papers k1 b, (buildIndex papers k1 b).avgDocLength =
        avgSpec (buildIndex papers k1 b).docLengths) ∧
    (∀ idx p, (addPaper idx p).avgDocLength = avgSpec (addPaper idx p).docLengths) ∧
    (∀ idx p, (updatePaper idx p).avgDocLength = avgSpec (updatePaper idx p).docLengths) ∧
    (∀ idx pid, idx.paperIds.findIdx? (fun i => i = pid) = none →
        removePaper idx pid = idx) ∧
    (∀ idx pid k, idx.paperIds.findIdx? (fun i => i = pid) = some k →
        (removePaper idx pid).docLengths ≠ [] →
        (removePaper idx pid).avgDocLength = avgSpec (removePaper idx pid).docLengths) ∧
    (∀ idx pid k, idx.paperIds.findIdx? (fun i => i = pid) = some k →
        (removePaper idx pid).docLengths = [] →
        (removePaper idx pid).avgDocLength = idx.avgDocLength) := by
  refine ⟨fun papers k1 b => rfl, fun idx p => ?_, fun idx p => ?_,
    fun idx pid hf => ?_, fun idx pid k hf h => ?_, fun idx pid k hf h => ?_⟩
  · simp [addPaper, avgSpec]
  · simp [updatePaper, addPaper, avgSpec]
  · unfold removePaper
    rw [hf]
  · unfold removePaper at h ⊢
    rw [hf] at h ⊢
    simp only at h ⊢
    have hne : ((idx.docLengths.eraseIdx k).isEmpty) = false := by
      simpa [List.isEmpty_iff] using h
    simp [hne, avgSpec]
  · unfold removePaper at h ⊢
    rw [hf] at h ⊢
    simp only at h ⊢
    have he : ((idx.docLengths.eraseIdx k).isEmpty) = true := by
      simp [List.isEmpty_iff, h]
    simp [he]

/-- C8 amended witness: the maintenance theorem applied to a concrete
removal that leaves one document in place. -/
theorem avg_doc_length_maintenance_witness :
    (buildIndex [paperA, paperB] (6/5) (3/4)).paperIds.findIdx? (fun i => i = "pA") = some 0 ∧
    (removePaper (buildIndex [paperA, paperB] (6/5) (3/4)) "pA").docLengths ≠ [] ∧
    (removePaper (buildIndex [paperA, paperB] (6/5) (3/4)) "pA").avgDocLength =
      avgSpec (removePaper (buildIndex [paperA, paperB] (6/5) (3/4)) "pA").docLengths :=
  ⟨by decide, by decide,
   avg_doc_length_maintenance.2.2.2.2.1 _ "pA" 0 (by decide) (by decide)⟩

/-! ### C1 — semantic-channel failure handling -/

/-- C1 counterexample: when the semantic adapter's query raises during a
hybrid search, `search_papers` does not degrade to lexical-only results —
the exception reaches the endpoint's generic handler and an HTTP 500
error is surfaced to the caller. -/
theorem semantic_failure_surfaces_500 :
    searchPapers emptyIndex (fun _ => none) (Except.error "connection refused")
      ⟨"attention", 1, 20, 2, 1/2⟩ = Except.error 500 := rfl

/-- C1 amended: a raising semantic adapter always surfaces as an HTTP 500
error to the caller (no degraded-mode flag exists); lexical-only results
are produced without error only when the adapter returns successfully,
e.g. with an empty candidate list. -/
theorem semantic_failure_behavior :
    (∀ idx db payload e, searchPapers idx db (Except.error e) payload = Except.error 500) ∧
    (∀ idx db payload groups,
        (searchPapers idx db (Except.ok groups) payload).isOk = true) := by
  constructor
  · intro idx db payload e
    rfl
  · intro idx db payload groups
    unfold searchPapers
    simp only
    split <;> rfl

/-! ### Decomposition of the per-document index update -/

theorem alookup_some_mem {K V : Type} [DecidableEq K] {k : K} {v : V} {d : List (K × V)}
    (h : alookup k d = some v) : (k, v) ∈ d := by
  induction d with
  | nil => simp [alookup] at h
  | cons e rest ih =>
    by_cases hk : k = e.1
    · rw [alookup, if_pos hk] at h
      obtain rfl : e.2 = v := Option.some.inj h
      subst hk
      exact List.mem_cons_self _ _
    · rw [alookup, if_neg hk] at h
      exact List.mem_cons_of_mem _ (ih h)

theorem alookup_of_mem_nodup {K V : Type} [DecidableEq K] {k : K} {v : V} {d : List (K × V)}
    (hd : (d.map Prod.fst).Nodup) (h : (k, v) ∈ d) : alookup k d = some v := by
  induction d with
  | nil => simp at h
  | cons e rest ih =>
    rcases List.mem_cons.mp h with h1 | h2
    · rw [← h1, alookup, if_pos rfl]
    · have hk : k ≠ e.1 := by
        intro hke
        have : k ∈ rest.map Prod.fst := List.mem_map_of_mem Prod.fst h2
        rw [hke] at this
        exact (List.nodup_cons.mp hd).1 this
      rw [alookup, if_neg hk]
      exact ih (List.nodup_cons.mp hd).2 h2

/-- The `term_freq` half of one `term_counts` item update. -/
def tfStep (pos : Nat) (tf : TermFreq) (item : String × Nat) : TermFreq :=
  dictSet item.1 (dictSet pos item.2 ((alookup item.1 tf).getD [])) tf

/-- The `doc_freq` half of one `term_counts` item update. -/
def dfStep (df : DocFreq) (item : String × Nat) : DocFreq :=
  dictSet item.1 ((alookup item.1 df).getD 0 + 1) df

theorem foldl_pair {A B I : Type} (f : A → I → A) (g : B → I → B) (items : List I)
    (a : A) (b : B) :
    items.foldl (fun p it => (f p.1 it, g p.2 it)) (a, b) = (items.foldl f a, items.foldl g b) := by
  induction items generalizing a b with
  | nil => rfl
  | cons it rest ih => simp [List.foldl_cons, ih]

theorem applyDoc_eq (pos : Nat) (tokens : List String) (tf : TermFreq) (df : DocFreq) :
    applyDoc pos tokens tf df =
      ((countTokens tokens).foldl (tfStep pos) tf, (countTokens tokens).foldl (dfStep) df) :=
  foldl_pair (tfStep pos) dfStep (countTokens tokens) tf df

theorem nodup_keys_countTokens_aux (tokens : List String) :
    ∀ d : List (String × Nat), (d.map Prod.fst).Nodup →
      ((tokens.foldl (fun d t => dictSet t ((alookup t d).getD 0 + 1) d) d).map Prod.fst).Nodup := by
  induction tokens with
  | nil => intro d hd; exact hd
  | cons t rest ih =>
    intro d hd
    exact ih _ (nodup_keys_dictSet t _ hd)

theorem nodup_keys_countTokens (tokens : List String) :
    ((countTokens tokens).map Prod.fst).Nodup :=
  nodup_keys_countTokens_aux tokens [] (by simp)

/-! ### Structural invariants of the term maps -/

/-- Consistency of `term_freq` / `doc_freq` over documents at positions
`< n`: both maps have unique keys, postings have unique position keys all
below `n`, `doc_freq[term]` equals the number of postings of `term`, and
every `doc_freq` key is a `term_freq` key. -/
def TfDfOk (tf : TermFreq) (df : DocFreq) (n : Nat) : Prop :=
  (tf.map Prod.fst).Nodup ∧
  (df.map Prod.fst).Nodup ∧
  (∀ e ∈ tf, (e.2.map Prod.fst).Nodup) ∧
  (∀ e ∈ tf, ∀ q ∈ e.2, q.1 < n) ∧
  (∀ e ∈ tf, alookup e.1 df = some e.2.length) ∧
  (∀ e ∈ df, (alookup e.1 tf).isSome = true)

theorem TfDfOk.mono {tf : TermFreq} {df : DocFreq} {n n' : Nat} (hn : n ≤ n')
    (h : TfDfOk tf df n) : TfDfOk tf df n' :=
  ⟨h.1, h.2.1, h.2.2.1, fun e he q hq => lt_of_lt_of_le (h.2.2.2.1 e he q hq) hn,
   h.2.2.2.2.1, h.2.2.2.2.2⟩

theorem steps_ok (n : Nat) :
    ∀ (items : List (String × Nat)) (tf : TermFreq) (df : DocFreq),
      (items.map Prod.fst).Nodup →
      TfDfOk tf df (n + 1) →
      (∀ t ∈ items.map Prod.fst, ∀ m, alookup t tf = some m → ∀ q ∈ m, q.1 < n) →
      TfDfOk (items.foldl (tfStep n) tf) (items.foldl dfStep df) (n + 1) := by
  intro items
  induction items with
  | nil => intro tf df _ h _; exact h
  | cons item rest ih =>
    intro tf df hnodup h hfresh
    obtain ⟨htfk, hdfk, hpn, hpb, htd, hdt⟩ := h
    obtain ⟨t, c⟩ := item
    have hrestk : (rest.map Prod.fst).Nodup := (List.nodup_cons.mp hnodup).2
    have htnotrest : t ∉ rest.map Prod.fst := (List.nodup_cons.mp hnodup).1
    -- the old postings list of t
    set m0 : List (Nat × Nat) := (alookup t tf).getD [] with hm0
    have hm0nodup : (m0.map Prod.fst).Nodup := by
      cases htf : alookup t tf with
      | none => simp [hm0, htf]
      | some m =>
        have : (t, m) ∈ tf := alookup_some_mem htf
        simpa [hm0, htf] using hpn _ this
    have hm0bound : ∀ q ∈ m0, q.1 < n := by
      cases htf : alookup t tf with
      | none => simp [hm0, htf]
      | some m =>
        intro q hq
        have hmem : q ∈ m := by simpa [hm0, htf] using hq
        exact hfresh t (by simp) m htf q hmem
    have hnfresh : n ∉ m0.map Prod.fst := by
      intro hmem
      rcases List.mem_map.mp hmem with ⟨q, hq, hq1⟩
      exact absurd (hq1 ▸ hm0bound q hq) (lt_irrefl n)
    have hdf0 : (alookup t df).getD 0 = m0.length := by
      cases htf : alookup t tf with
      | none =>
        have hdfn : alookup t df = none := by
          cases hdf : alookup t df with
          | none => rfl
          | some v =>
            have := hdt _ (alookup_some_mem hdf)
            rw [htf] at this
            simp at this
        simp [hm0, htf, hdfn]
      | some m =>
        have := htd _ (alookup_some_mem htf)
        simp [hm0, htf, this]
    -- the updated maps after this item
    have step_tf : (tfStep n) tf (t, c) = dictSet t (dictSet n c m0) tf := rfl
    have step_df : dfStep df (t, c) = dictSet t ((alookup t df).getD 0 + 1) df := rfl
    set newm : List (Nat × Nat) := dictSet n c m0 with hnewm
    have hnewm_nodup : (newm.map Prod.fst).Nodup := nodup_keys_dictSet n c hm0nodup
    have hnewm_bound : ∀ q ∈ newm, q.1 < n + 1 := by
      intro q hq
      rcases mem_dictSet hm0nodup hq with h1 | h1
      · rw [h1]; exact Nat.lt_succ_self n
      · exact Nat.lt_succ_of_lt (hm0bound q h1.1)
    have hnewm_len : newm.length = m0.length + 1 := length_dictSet_of_absent c hnfresh
    refine ih (dictSet t newm tf) (dictSet t ((alookup t df).getD 0 + 1) df) hrestk
      ⟨nodup_keys_dictSet t newm htfk, nodup_keys_dictSet t _ hdfk, ?_, ?_, ?_, ?_⟩ ?_
    · intro e he
      rcases mem_dictSet htfk he with h1 | h1
      · rw [h1]; exact hnewm_nodup
      · exact hpn e h1.1
    · intro e he q hq
      rcases mem_dictSet htfk he with h1 | h1
      · rw [h1] at hq; exact hnewm_bound q hq
      · exact hpb e h1.1 q hq
    · intro e he
      rcases mem_dictSet htfk he with h1 | h1
      · rw [h1]
        simp only
        rw [alookup_dictSet_self, hnewm_len, hdf0]
      · rw [alookup_dictSet_ne _ _ h1.2, htd e h1.1]
    · intro e he
      rcases mem_dictSet hdfk he with h1 | h1
      · rw [h1]
        simp only
        rw [alookup_dictSet_self]
        rfl
      · rw [alookup_dictSet_ne _ _ h1.2]
        exact hdt e h1.1
    · intro t' ht' m hm q hq
      have htne : t' ≠ t := fun hc => htnotrest (hc ▸ ht')
      rw [alookup_dictSet_ne _ _ htne] at hm
      exact hfresh t' (by simp [ht']) m hm q hq

theorem applyDoc_ok (pos : Nat) (tokens : List String) {tf : TermFreq} {df : DocFreq}
    (h : TfDfOk tf df pos) :
    TfDfOk (applyDoc pos tokens tf df).1 (applyDoc pos tokens tf df).2 (pos + 1) := by
  rw [applyDoc_eq]
  refine steps_ok pos (countTokens tokens) tf df (nodup_keys_countTokens _)
    (h.mono (Nat.le_succ pos)) ?_
  intro t _ m hm q hq
  exact h.2.2.2.1 _ (alookup_some_mem hm) q hq

theorem buildSteps_ok :
    ∀ (docs : List (List String)) (n : Nat) (tf : TermFreq) (df : DocFreq),
      TfDfOk tf df n →
      TfDfOk ((List.enumFrom n docs).foldl (fun p it => applyDoc it.1 it.2 p.1 p.2) (tf, df)).1
        ((List.enumFrom n docs).foldl (fun p it => applyDoc it.1 it.2 p.1 p.2) (tf, df)).2
        (n + docs.length) := by
  intro docs
  induction docs with
  | nil => intro n tf df h; simpa using h
  | cons d ds ih =>
    intro n tf df h
    rw [List.enumFrom_cons, List.foldl_cons]
    have h1 := applyDoc_ok n d h
    have h2 := ih (n + 1) (applyDoc n d tf df).1 (applyDoc n d tf df).2 h1
    have harr : (n + 1) + ds.length = n + (d :: ds).length := by
      simp [List.length_cons]
      omega
    rw [harr] at h2
    simpa using h2

theorem buildTermIndexes_ok (docs : List (List String)) :
    TfDfOk (buildTermIndexes docs).1 (buildTermIndexes docs).2 docs.length := by
  have h0 : TfDfOk [] [] 0 := by
    refine ⟨List.nodup_nil, List.nodup_nil, ?_, ?_, ?_, ?_⟩ <;> simp
  have := buildSteps_ok docs 0 [] [] h0
  simpa [buildTermIndexes, List.enum_eq_enumFrom] using this

/-- Well-formedness of a `BM25Service` state: the three parallel lists
agree in length, `total_docs` is the live document count, and the two
term maps are consistent over positions below the document count. -/
def WfIdx (idx : BM25Index) : Prop :=
  idx.paperIds.length = idx.documents.length ∧
  idx.docLengths.length = idx.documents.length ∧
  idx.totalDocs = idx.documents.length ∧
  TfDfOk idx.termFreq idx.docFreq idx.documents.length

theorem wf_buildIndex (papers : List Paper) (k1 b : ℚ) : WfIdx (buildIndex papers k1 b) := by
  refine ⟨?_, ?_, rfl, ?_⟩
  · simp [buildIndex]
  · simp [buildIndex]
  · exact buildTermIndexes_ok _

theorem wf_addPaper {idx : BM25Index} (p : Paper) (h : WfIdx idx) : WfIdx (addPaper idx p) := by
  obtain ⟨h1, h2, h3, h4⟩ := h
  refine ⟨?_, ?_, rfl, ?_⟩
  · simp [addPaper, h1]
  · simp [addPaper, h2]
  · have hpos : (idx.documents ++ [tokenize (paperText p)]).length - 1 = idx.documents.length := by
      simp
    have := applyDoc_ok idx.documents.length (tokenize (paperText p)) h4
    simp only [addPaper, hpos]
    simpa using this

theorem wf_removePaper {idx : BM25Index} (pid : String) (h : WfIdx idx) :
    WfIdx (removePaper idx pid) := by
  obtain ⟨h1, h2, h3, h4⟩ := h
  unfold removePaper
  cases hf : idx.paperIds.findIdx? (fun i => i = pid) with
  | none => exact ⟨h1, h2, h3, h4⟩
  | some k =>
    have hk : k < idx.paperIds.length :=
      (List.findIdx?_eq_some_iff_findIdx_eq.mp hf).1
    refine ⟨?_, ?_, rfl, ?_⟩
    · simp only
      rw [List.length_eraseIdx, List.length_eraseIdx]
      rw [if_pos hk, if_pos (h1 ▸ hk)]
      omega
    · simp only
      rw [List.length_eraseIdx, List.length_eraseIdx]
      rw [if_pos (h2.trans h1.symm ▸ hk), if_pos (h1 ▸ hk)]
      omega
    · exact buildTermIndexes_ok _

theorem wf_updatePaper {idx : BM25Index} (p : Paper) (h : WfIdx idx) :
    WfIdx (updatePaper idx p) :=
  wf_addPaper p (wf_removePaper p.id h)

/-! ### C9 — operations preserve the structural invariants -/

/-- The invariants exactly as the specification states them:
`len(documents) == len(document_ids) == len(doc_lengths)`, and for every
term present in `document_frequency`, its count equals the number of
internal positions recorded for it in `term_frequency`. -/
def ClaimInvariants (idx : BM25Index) : Prop :=
  idx.documents.length = idx.paperIds.length ∧
  idx.documents.length = idx.docLengths.length ∧
  ∀ e ∈ idx.docFreq, ∃ m, alookup e.1 idx.termFreq = some m ∧ e.2 = m.length

theorem wfIdx_claimInvariants {idx : BM25Index} (h : WfIdx idx) : ClaimInvariants idx := by
  obtain ⟨h1, h2, _, _, hdfk, _, _, htd, hdt⟩ := h
  refine ⟨h1.symm, h2.symm, ?_⟩
  intro e he
  have hsome := hdt e he
  cases hm : alookup e.1 idx.termFreq with
  | none => rw [hm] at hsome; simp at hsome
  | some m =>
    refine ⟨m, rfl, ?_⟩
    have hmem : (e.1, m) ∈ idx.termFreq := alookup_some_mem hm
    have h5 := htd _ hmem
    have h6 : alookup e.1 idx.docFreq = some e.2 := alookup_of_mem_nodup hdfk (by simpa using he)
    rw [h5] at h6
    exact (Option.some.inj h6).symm

/-- C9: every index operation (Build, Add, Remove, Update) preserves the
structural invariants — the three parallel lists stay equally long and
`document_frequency[term]` equals the number of positions recorded for
`term` in `term_frequency`; after a Remove that finds its identifier the
two term maps are exactly the maps rebuilt from the remaining documents
(no stale counts), and Update is literally Remove followed by Add. -/
theorem index_ops_preserve_invariants :
    (∀ papers k1 b, WfIdx (buildIndex papers k1 b) ∧ ClaimInvariants (buildIndex papers k1 b)) ∧
    (∀ idx p, WfIdx idx → WfIdx (addPaper idx p) ∧ ClaimInvariants (addPaper idx p)) ∧
    (∀ idx pid, WfIdx idx → WfIdx (removePaper idx pid) ∧ ClaimInvariants (removePaper idx pid)) ∧
    (∀ idx p, WfIdx idx → WfIdx (updatePaper idx p) ∧ ClaimInvariants (updatePaper idx p)) ∧
    (∀ idx pid k, idx.paperIds.findIdx? (fun i => i = pid) = some k →
        (removePaper idx pid).termFreq = (buildTermIndexes (removePaper idx pid).documents).1 ∧
        (removePaper idx pid).docFreq = (buildTermIndexes (removePaper idx pid).documents).2) ∧
    (∀ idx p, updatePaper idx p = addPaper (removePaper idx p.id) p) := by
  refine ⟨fun papers k1 b => ?_, fun idx p h => ?_, fun idx pid h => ?_, fun idx p h => ?_,
    fun idx pid k hf => ?_, fun idx p => rfl⟩
  · exact ⟨wf_buildIndex papers k1 b, wfIdx_claimInvariants (wf_buildIndex papers k1 b)⟩
  · exact ⟨wf_addPaper p h, wfIdx_claimInvariants (wf_addPaper p h)⟩
  · exact ⟨wf_removePaper pid h, wfIdx_claimInvariants (wf_removePaper pid h)⟩
  · exact ⟨wf_updatePaper p h, wfIdx_claimInvariants (wf_updatePaper p h)⟩
  · unfold removePaper
    rw [hf]
    exact ⟨rfl, rfl⟩

/-- C9 witness: the preservation theorem applied to a concrete add onto a
freshly built index. -/
theorem index_ops_preserve_invariants_witness :
    WfIdx (addPaper (buildIndex [paperA] (6/5) (3/4)) paperB) ∧
    ClaimInvariants (addPaper (buildIndex [paperA] (6/5) (3/4)) paperB) :=
  index_ops_preserve_invariants.2.1 (buildIndex [paperA] (6/5) (3/4)) paperB
    (wf_buildIndex [paperA] (6/5) (3/4))

/-! ### C10 — duplicate identifiers are not checked by Add -/

theorem mem_keys_dictSet {K V : Type} [DecidableEq K] {t k : K} (v : V) (d : List (K × V)) :
    t ∈ (dictSet k v d).map Prod.fst ↔ t ∈ d.map Prod.fst ∨ t = k := by
  by_cases hk : k ∈ d.map Prod.fst
  · rw [keys_dictSet_of_mem v hk]
    constructor
    · exact fun h => Or.inl h
    · rintro (h | rfl)
      · exact h
      · exact hk
  · rw [keys_dictSet_of_absent v hk]
    simp

theorem mem_keys_countTokens_aux (tokens : List String) (t : String) :
    ∀ d : List (String × Nat),
      (t ∈ ((tokens.foldl (fun d tok => dictSet tok ((alookup tok d).getD 0 + 1) d) d).map Prod.fst) ↔
        t ∈ d.map Prod.fst ∨ t ∈ tokens) := by
  induction tokens with
  | nil => intro d; simp
  | cons tok rest ih =>
    intro d
    rw [List.foldl_cons, ih, mem_keys_dictSet]
    simp only [List.mem_cons]
    tauto

theorem mem_keys_countTokens {tokens : List String} {t : String} :
    t ∈ (countTokens tokens).map Prod.fst ↔ t ∈ tokens := by
  rw [countTokens, mem_keys_countTokens_aux]
  simp

theorem alookup_dfFold_notmem {items : List (String × Nat)} {df : DocFreq} {t : String}
    (h : t ∉ items.map Prod.fst) :
    alookup t (items.foldl dfStep df) = alookup t df := by
  induction items generalizing df with
  | nil => rfl
  | cons item rest ih =>
    have ht : t ≠ item.1 := fun hc => h (by simp [hc])
    rw [List.foldl_cons, ih (fun hc => h (by simp [hc]))]
    exact alookup_dictSet_ne _ _ ht

theorem alookup_dfFold_mem {items : List (String × Nat)} {df : DocFreq} {t : String}
    (hnodup : (items.map Prod.fst).Nodup) (ht : t ∈ items.map Prod.fst) :
    alookup t (items.foldl dfStep df) = some ((alookup t df).getD 0 + 1) := by
  induction items generalizing df with
  | nil => simp at ht
  | cons item rest ih =>
    rw [List.foldl_cons]
    by_cases hte : t = item.1
    · have hnot : t ∉ rest.map Prod.fst := hte ▸ (List.nodup_cons.mp hnodup).1
      rw [alookup_dfFold_notmem hnot, dfStep, hte, alookup_dictSet_self]
    · have htr : t ∈ rest.map Prod.fst := by
        rcases List.mem_cons.mp ht with h1 | h1
        · exact absurd h1 hte
        · exact h1
      rw [ih (List.nodup_cons.mp hnodup).2 htr, dfStep, alookup_dictSet_ne _ _ hte]

theorem addPaper_docFreq_mem {idx : BM25Index} {p : Paper} {t : String}
    (ht : t ∈ tokenize (paperText p)) :
    alookup t (addPaper idx p).docFreq = some ((alookup t idx.docFreq).getD 0 + 1) := by
  have : (addPaper idx p).docFreq =
      (countTokens (tokenize (paperText p))).foldl dfStep idx.docFreq := by
    simp only [addPaper, applyDoc_eq]
  rw [this]
  exact alookup_dfFold_mem (nodup_keys_countTokens _) (mem_keys_countTokens.mpr ht)

theorem findIdx?_append_cons_self {l rest : List String} {pid : String} (h : pid ∉ l) :
    (l ++ pid :: rest).findIdx? (fun i => i = pid) = some l.length := by
  rw [List.findIdx?_append]
  have h1 : l.findIdx? (fun i => i = pid) = none := by
    rw [List.findIdx?_eq_none_iff]
    intro x hx
    simp only [decide_eq_false_iff_not]
    exact fun hc => h (hc ▸ hx)
  have h2 : (pid :: rest).findIdx? (fun i => i = pid) = some 0 := by
    simp
  rw [h1, h2]
  simp

/-- C10: `add_paper` performs no identifier-uniqueness check — adding a
paper whose identifier is already indexed appends a second independent
entry, the document count and every term of the paper's text gain a
second count, and a subsequent `remove_paper` of that identifier deletes
only the first occurrence, leaving the duplicate indexed. -/
theorem duplicate_identifier_behavior (idx : BM25Index) (p : Paper)
    (hwf : WfIdx idx) (hnot : p.id ∉ idx.paperIds) :
    (addPaper (addPaper idx p) p).paperIds = idx.paperIds ++ [p.id, p.id] ∧
    (addPaper (addPaper idx p) p).totalDocs = idx.documents.length + 2 ∧
    (∀ t ∈ tokenize (paperText p),
        alookup t (addPaper (addPaper idx p) p).docFreq =
          some ((alookup t idx.docFreq).getD 0 + 2)) ∧
    (removePaper (addPaper (addPaper idx p) p) p.id).paperIds = idx.paperIds ++ [p.id] ∧
    p.id ∈ (removePaper (addPaper (addPaper idx p) p) p.id).paperIds ∧
    (removePaper (addPaper (addPaper idx p) p) p.id).documents =
      idx.documents ++ [tokenize (paperText p)] := by
  have hids : (addPaper (addPaper idx p) p).paperIds = idx.paperIds ++ [p.id, p.id] := by
    simp [addPaper]
  have hdocs : (addPaper (addPaper idx p) p).documents =
      idx.documents ++ [tokenize (paperText p), tokenize (paperText p)] := by
    simp [addPaper]
  have hfind : (addPaper (addPaper idx p) p).paperIds.findIdx? (fun i => i = p.id) =
      some idx.paperIds.length := by
    rw [hids]
    exact findIdx?_append_cons_self hnot
  refine ⟨hids, ?_, ?_, ?_, ?_, ?_⟩
  · simp [addPaper]
  · intro t ht
    rw [addPaper_docFreq_mem ht, addPaper_docFreq_mem ht]
    simp [Nat.add_assoc]
  · unfold removePaper
    rw [hfind]
    simp only [hids]
    rw [List.eraseIdx_append_of_length_le (le_refl _)]
    simp
  · unfold removePaper
    rw [hfind]
    simp only [hids]
    rw [List.eraseIdx_append_of_length_le (le_refl _)]
    simp
  · unfold removePaper
    rw [hfind]
    simp only [hdocs]
    rw [List.eraseIdx_append_of_length_le (by rw [hwf.1])]
    rw [hwf.1]
    simp

/-- C10 witness: duplicate addition of a concrete paper onto a concrete
one-paper index. -/
theorem duplicate_identifier_behavior_witness :
    (addPaper (addPaper (buildIndex [paperB] (6/5) (3/4)) paperA) paperA).paperIds =
      ["pB", "pA", "pA"] ∧
    (removePaper (addPaper (addPaper (buildIndex [paperB] (6/5) (3/4)) paperA) paperA)
        "pA").paperIds = ["pB", "pA"] := by
  have h := duplicate_identifier_behavior (buildIndex [paperB] (6/5) (3/4)) paperA
    (wf_buildIndex [paperB] (6/5) (3/4)) (by decide)
  exact ⟨h.1, h.2.2.2.1⟩

/-! ### C3 — self-score of a document added to an empty index -/

theorem singleton_docFreq (p : Paper) :
    (addPaper emptyIndex p).docFreq =
      (countTokens (tokenize (paperText p))).foldl dfStep [] := by
  rw [show (addPaper emptyIndex p).docFreq =
        (applyDoc 0 (tokenize (paperText p)) [] []).2 from rfl, applyDoc_eq]

theorem calculateIdf_of_none {idx : BM25Index} {t : String}
    (h : alookup t idx.docFreq = none) : calculateIdf idx t = 0 := by
  unfold calculateIdf
  rw [h]

theorem calculateIdf_of_some {idx : BM25Index} {t : String} {df : Nat}
    (h : alookup t idx.docFreq = some df) :
    calculateIdf idx t = Real.log (((idx.totalDocs : ℝ) + 1) / ((df : ℝ) + 1)) := by
  unfold calculateIdf
  rw [h]

theorem singleton_idf_zero (p : Paper) (t : String) :
    calculateIdf (addPaper emptyIndex p) t = 0 := by
  by_cases hmem : t ∈ tokenize (paperText p)
  · have h : alookup t (addPaper emptyIndex p).docFreq = some 1 := by
      rw [singleton_docFreq,
        alookup_dfFold_mem (nodup_keys_countTokens _) (mem_keys_countTokens.mpr hmem)]
      rfl
    rw [calculateIdf_of_some h]
    have htot : (addPaper emptyIndex p).totalDocs = 1 := rfl
    rw [htot]
    norm_num
  · have h : alookup t (addPaper emptyIndex p).docFreq = none := by
      rw [singleton_docFreq,
        alookup_dfFold_notmem (fun hc => hmem (mem_keys_countTokens.mp hc))]
      rfl
    exact calculateIdf_of_none h

/-- Per-term contribution of `_calculate_bm25_score`, factored out of the
accumulating loop (the added summand does not depend on the accumulator). -/
noncomputable def termContribution (idx : BM25Index) (pos : Nat) (term : String) : ℝ :=
  match alookup term idx.termFreq with
  | none => 0
  | some postings =>
    match alookup pos postings with
    | none => 0
    | some tf =>
      calculateIdf idx term *
        (((tf : ℝ) * ((idx.k1 : ℝ) + 1)) /
          ((tf : ℝ) + (idx.k1 : ℝ) * (1 - (idx.b : ℝ) + (idx.b : ℝ) *
            ((idx.docLengths.getD pos 0 : ℝ) / (idx.avgDocLength : ℝ)))))

theorem termContribution_of_notin_tf {idx : BM25Index} {pos : Nat} {term : String}
    (h : alookup term idx.termFreq = none) : termContribution idx pos term = 0 := by
  unfold termContribution
  rw [h]

theorem termContribution_of_notin_doc {idx : BM25Index} {pos : Nat} {term : String}
    {postings : List (Nat × Nat)} (h : alookup term idx.termFreq = some postings)
    (h2 : alookup pos postings = none) : termContribution idx pos term = 0 := by
  unfold termContribution
  rw [h]
  simp only
  rw [h2]

theorem termContribution_of_mem {idx : BM25Index} {pos : Nat} {term : String}
    {postings : List (Nat × Nat)} {tf : Nat} (h : alookup term idx.termFreq = some postings)
    (h2 : alookup pos postings = some tf) :
    termContribution idx pos term =
      calculateIdf idx term *
        (((tf : ℝ) * ((idx.k1 : ℝ) + 1)) /
          ((tf : ℝ) + (idx.k1 : ℝ) * (1 - (idx.b : ℝ) + (idx.b : ℝ) *
            ((idx.docLengths.getD pos 0 : ℝ) / (idx.avgDocLength : ℝ))))) := by
  unfold termContribution
  rw [h]
  simp only
  rw [h2]

theorem calculateBm25Score_foldl (idx : BM25Index) (pos : Nat) :
    ∀ (qts : List String) (acc : ℝ),
      qts.foldl
        (fun score term =>
          match alookup term idx.termFreq with
          | none => score
          | some postings =>
            match alookup pos postings with
            | none => score
            | some tf =>
              let docLength : ℝ := (idx.docLengths.getD pos 0 : ℝ)
              let idf := calculateIdf idx term
              let numerator : ℝ := (tf : ℝ) * ((idx.k1 : ℝ) + 1)
              let denominator : ℝ :=
                (tf : ℝ) + (idx.k1 : ℝ) *
                  (1 - (idx.b : ℝ) + (idx.b : ℝ) * (docLength / (idx.avgDocLength : ℝ)))
              score + idf * (numerator / denominator))
        acc = acc + (qts.map (termContribution idx pos)).sum := by
  intro qts
  induction qts with
  | nil => intro acc; simp
  | cons t rest ih =>
    intro acc
    rw [List.foldl_cons, List.map_cons, List.sum_cons]
    cases htf : alookup t idx.termFreq with
    | none =>
      simp only [htf]
      rw [ih acc, termContribution_of_notin_tf htf]
      ring
    | some postings =>
      cases hpos : alookup pos postings with
      | none =>
        simp only [htf, hpos]
        rw [ih acc, termContribution_of_notin_doc htf hpos]
        ring
      | some tf =>
        simp only [htf, hpos]
        rw [ih, termContribution_of_mem htf hpos]
        ring

theorem calculateBm25Score_eq_sum (idx : BM25Index) (pos : Nat) (qts : List String) :
    calculateBm25Score idx pos qts = (qts.map (termContribution idx pos)).sum := by
  have h := calculateBm25Score_foldl idx pos qts 0
  rw [zero_add] at h
  exact h

theorem singleton_score_zero (p : Paper) (pos : Nat) (qts : List String) :
    calculateBm25Score (addPaper emptyIndex p) pos qts = 0 := by
  rw [calculateBm25Score_eq_sum]
  apply List.sum_eq_zero
  intro x hx
  rcases List.mem_map.mp hx with ⟨t, _, rfl⟩
  cases htf : alookup t (addPaper emptyIndex p).termFreq with
  | none => exact termContribution_of_notin_tf htf
  | some postings =>
    cases hpos : alookup pos postings with
    | none => exact termContribution_of_notin_doc htf hpos
    | some tf =>
      rw [termContribution_of_mem htf hpos, singleton_idf_zero, zero_mul]

/-- C3 counterexample: a document added to an empty index whose text
yields tokens nevertheless scores exactly 0 against its own token
sequence — with a single document every term has
`document_frequency = total_docs = 1`, so `idf = ln(2/2) = 0`. -/
theorem own_text_score_not_positive :
    tokenize (paperText paperA) ≠ [] ∧
    ¬ (0 < calculateBm25Score (addPaper emptyIndex paperA) 0
        (tokenize (paperText paperA))) := by
  constructor
  · decide
  · rw [singleton_score_zero]
    exact lt_irrefl 0

/-- C3 amended: the self-score of the only document of a one-document
index is exactly 0 (for every query, in particular the document's own
token sequence): each indexed term has `df = N = 1`, hence
`idf = ln((1+1)/(1+1)) = 0`, and every BM25 contribution vanishes. -/
theorem singleton_index_score_zero (p : Paper) (pos : Nat) (qts : List String) :
    calculateBm25Score (addPaper emptyIndex p) pos qts = 0 :=
  singleton_score_zero p pos qts

/-! ### C4 — the BM25 scoring formula -/

/-- Per-term score exactly as the specification words it: terms absent
from the index or from the document contribute zero, and otherwise the
contribution is `idf(term) * (tf*(k1+1)) / (tf + k1*(1 - b + b*(doc_length
/ average_document_length)))` with `idf(term) = ln((N + 1) /
(document_frequency[term] + 1))` and `N` the live document count. -/
noncomputable def specTermScore (idx : BM25Index) (pos : Nat) (term : String) : ℝ :=
  match alookup term idx.termFreq with
  | none => 0
  | some postings =>
    match alookup pos postings with
    | none => 0
    | some tf =>
      Real.log (((idx.documents.length : ℝ) + 1) /
          (((alookup term idx.docFreq).getD 0 : ℝ) + 1)) *
        (((tf : ℝ) * ((idx.k1 : ℝ) + 1)) /
          ((tf : ℝ) + (idx.k1 : ℝ) * (1 - (idx.b : ℝ) + (idx.b : ℝ) *
            ((idx.docLengths.getD pos 0 : ℝ) / (idx.avgDocLength : ℝ)))))

theorem specTermScore_of_notin_tf {idx : BM25Index} {pos : Nat} {term : String}
    (h : alookup term idx.termFreq = none) : specTermScore idx pos term = 0 := by
  unfold specTermScore
  rw [h]

theorem specTermScore_of_notin_doc {idx : BM25Index} {pos : Nat} {term : String}
    {postings : List (Nat × Nat)} (h : alookup term idx.termFreq = some postings)
    (h2 : alookup pos postings = none) : specTermScore idx pos term = 0 := by
  unfold specTermScore
  rw [h]
  simp only
  rw [h2]

theorem specTermScore_of_mem {idx : BM25Index} {pos : Nat} {term : String}
    {postings : List (Nat × Nat)} {tf : Nat} (h : alookup term idx.termFreq = some postings)
    (h2 : alookup pos postings = some tf) :
    specTermScore idx pos term =
      Real.log (((idx.documents.length : ℝ) + 1) /
          (((alookup term idx.docFreq).getD 0 : ℝ) + 1)) *
        (((tf : ℝ) * ((idx.k1 : ℝ) + 1)) /
          ((tf : ℝ) + (idx.k1 : ℝ) * (1 - (idx.b : ℝ) + (idx.b : ℝ) *
            ((idx.docLengths.getD pos 0 : ℝ) / (idx.avgDocLength : ℝ))))) := by
  unfold specTermScore
  rw [h]
  simp only
  rw [h2]

theorem termContribution_eq_spec {idx : BM25Index} (h : WfIdx idx) (pos : Nat) (term : String) :
    termContribution idx pos term = specTermScore idx pos term := by
  cases htf : alookup term idx.termFreq with
  | none => rw [termContribution_of_notin_tf htf, specTermScore_of_notin_tf htf]
  | some postings =>
    cases hpos : alookup pos postings with
    | none => rw [termContribution_of_notin_doc htf hpos, specTermScore_of_notin_doc htf hpos]
    | some tf =>
      rw [termContribution_of_mem htf hpos, specTermScore_of_mem htf hpos]
      have hdf : alookup term idx.docFreq = some postings.length :=
        h.2.2.2.2.2.2.2.1 _ (alookup_some_mem htf)
      rw [calculateIdf_of_some hdf, hdf, h.2.2.1]
      rfl

/-- C4: for every indexed position and query-term list (over any
well-formed index state), `_calculate_bm25_score` equals the sum over the
query terms of the specification's per-term formula, where terms absent
from the index or from the document contribute exactly zero. -/
theorem bm25_score_formula (idx : BM25Index) (pos : Nat) (qts : List String)
    (h : WfIdx idx) :
    calculateBm25Score idx pos qts = (qts.map (specTermScore idx pos)).sum ∧
    (∀ term, alookup term idx.termFreq = none → specTermScore idx pos term = 0) ∧
    (∀ term postings, alookup term idx.termFreq = some postings →
        alookup pos postings = none → specTermScore idx pos term = 0) := by
  refine ⟨?_, fun term ht => specTermScore_of_notin_tf ht,
    fun term postings ht hp => specTermScore_of_notin_doc ht hp⟩
  rw [calculateBm25Score_eq_sum]
  congr 1
  exact List.map_congr_left (fun t _ => termContribution_eq_spec h pos t)

/-- C4 witness: the formula theorem applied to a concrete two-document
index, position 0 and the query tokens of "deep networks". -/
theorem bm25_score_formula_witness :
    calculateBm25Score (buildIndex [paperA, paperB] (6/5) (3/4)) 0
        (tokenize "deep networks") =
      ((tokenize "deep networks").map
        (specTermScore (buildIndex [paperA, paperB] (6/5) (3/4)) 0)).sum :=
  (bm25_score_formula (buildIndex [paperA, paperB] (6/5) (3/4)) 0 (tokenize "deep networks")
    (wf_buildIndex [paperA, paperB] (6/5) (3/4))).1

/-! ### Stable descending sort: permutation and sortedness -/

theorem insertDescBy_perm {α : Type} (gt : α → α → Bool) (x : α) (l : List α) :
    (insertDescBy gt x l).Perm (x :: l) := by
  induction l with
  | nil => exact List.Perm.refl _
  | cons y ys ih =>
    cases hgt : gt x y with
    | true => rw [insertDescBy, if_pos hgt]
    | false =>
      rw [insertDescBy, if_neg (by simp [hgt])]
      exact (ih.cons y).trans (List.Perm.swap x y ys)

theorem sortDescBy_aux_perm {α : Type} (gt : α → α → Bool) :
    ∀ (l acc : List α),
      (l.foldl (fun acc x => insertDescBy gt x acc) acc).Perm (l ++ acc) := by
  intro l
  induction l with
  | nil => intro acc; simp
  | cons x rest ih =>
    intro acc
    rw [List.foldl_cons]
    refine (ih (insertDescBy gt x acc)).trans ?_
    refine (List.Perm.append_left rest (insertDescBy_perm gt x acc)).trans ?_
    exact List.perm_middle

theorem sortDescBy_perm {α : Type} (gt : α → α → Bool) (l : List α) :
    (sortDescBy gt l).Perm l := by
  have h := sortDescBy_aux_perm gt l []
  simpa [sortDescBy] using h

theorem mem_sortDescBy {α : Type} {gt : α → α → Bool} {l : List α} {x : α} :
    x ∈ sortDescBy gt l ↔ x ∈ l :=
  (sortDescBy_perm gt l).mem_iff

/-- Descending order with the stable tie-break: a strictly larger key
comes first, and equal keys stay in the original (rank) order. -/
def KeyRank {α β : Type} [LinearOrder β] (key : α → β) (rank : α → Nat) (a b : α) : Prop :=
  key b < key a ∨ (key a = key b ∧ rank a < rank b)

theorem insertDescBy_pairwise_key {α β : Type} [LinearOrder β] (key : α → β) (rank : α → Nat)
    (x : α) :
    ∀ acc : List α, acc.Pairwise (KeyRank key rank) → (∀ y ∈ acc, rank y < rank x) →
      (insertDescBy (fun a b => decide (key b < key a)) x acc).Pairwise (KeyRank key rank) := by
  intro acc
  induction acc with
  | nil => intro _ _; simp [insertDescBy]
  | cons y ys ih =>
    intro hacc hr
    obtain ⟨hy, hys⟩ := List.pairwise_cons.mp hacc
    cases hgt : decide (key y < key x) with
    | true =>
      rw [insertDescBy, if_pos hgt]
      have hyx : key y < key x := of_decide_eq_true hgt
      refine List.pairwise_cons.mpr ⟨?_, hacc⟩
      intro z hz
      rcases List.mem_cons.mp hz with rfl | hzys
      · exact Or.inl hyx
      · rcases hy z hzys with h1 | h1
        · exact Or.inl (h1.trans hyx)
        · exact Or.inl (h1.1 ▸ hyx)
    | false =>
      rw [insertDescBy, if_neg (by simp [hgt])]
      have hxy : key x ≤ key y := le_of_not_lt (of_decide_eq_false hgt)
      refine List.pairwise_cons.mpr ⟨?_, ih hys (fun z hz => hr z (List.mem_cons_of_mem _ hz))⟩
      intro z hz
      have hz' : z = x ∨ z ∈ ys := by
        have := (insertDescBy_perm (fun a b => decide (key b < key a)) x ys).mem_iff.mp hz
        simpa using this
      rcases hz' with rfl | hzys
      · rcases lt_or_eq_of_le hxy with h1 | h1
        · exact Or.inl h1
        · exact Or.inr ⟨h1.symm, hr y (List.mem_cons_self y ys)⟩
      · exact hy z hzys

theorem sortDescBy_pairwise_key {α β : Type} [LinearOrder β] (key : α → β) (rank : α → Nat) :
    ∀ (l acc : List α), l.Pairwise (fun a b => rank a < rank b) →
      acc.Pairwise (KeyRank key rank) → (∀ x ∈ l, ∀ y ∈ acc, rank y < rank x) →
      (l.foldl (fun acc x => insertDescBy (fun a b => decide (key b < key a)) x acc) acc).Pairwise
        (KeyRank key rank) := by
  intro l
  induction l with
  | nil => intro acc _ hacc _; exact hacc
  | cons x rest ih =>
    intro acc hl hacc hr
    obtain ⟨hx, hrest⟩ := List.pairwise_cons.mp hl
    rw [List.foldl_cons]
    refine ih _ hrest
      (insertDescBy_pairwise_key key rank x acc hacc
        (fun y hy => hr x (List.mem_cons_self x rest) y hy)) ?_
    intro x' hx' y hy
    have hy' : y = x ∨ y ∈ acc := by
      have := (insertDescBy_perm (fun a b => decide (key b < key a)) x acc).mem_iff.mp hy
      simpa using this
    rcases hy' with rfl | hyacc
    · exact hx x' hx'
    · exact hr x' (List.mem_cons_of_mem _ hx') y hyacc

theorem sortDescBy_sorted {α β : Type} [LinearOrder β] (key : α → β) (rank : α → Nat)
    (l : List α) (hl : l.Pairwise (fun a b => rank a < rank b)) :
    (sortDescBy (fun a b => decide (key b < key a)) l).Pairwise (KeyRank key rank) :=
  sortDescBy_pairwise_key key rank l [] hl (List.Pairwise.nil) (by simp)

/-! ### C5 — the lexical search contract -/

theorem filterMap_map_eq {α β γ : Type} (g : α → Option β) (proj : β → γ) (val : α → γ) :
    ∀ l : List α, (∀ a ∈ l, ∃ b, g a = some b ∧ proj b = val a) →
      (l.filterMap g).map proj = l.map val := by
  intro l
  induction l with
  | nil => intro _; rfl
  | cons a rest ih =>
    intro h
    obtain ⟨b, hb, hproj⟩ := h a (List.mem_cons_self a rest)
    rw [List.filterMap_cons, hb, List.map_cons, List.map_cons, hproj,
      ih (fun x hx => h x (List.mem_cons_of_mem _ hx))]

theorem bm25Search_eq (idx : BM25Index) (db : String → Option Paper) (q : String)
    (limit : Nat) (h : ¬ (tokenize q).isEmpty = true) :
    bm25Search idx db q limit =
      (((sortDescBy (fun a b => decide (b.2 < a.2))
        ((List.range idx.documents.length).filterMap (fun pos =>
          if 0 < calculateBm25Score idx pos (tokenize q) then
            some (pos, calculateBm25Score idx pos (tokenize q))
          else none))).take limit).enum).filterMap
        (fun it => (db (idx.paperIds.getD it.2.1 "")).map
          (fun p => ⟨it.2.1, p.id, it.2.2, it.1 + 1⟩)) := by
  unfold bm25Search
  rw [if_neg h]

/-- C5: `BM25Service.search` tokenizes the query (empty token sequence
gives an empty result, not an error); it returns only documents with
strictly positive score, sorted descending by score with the
deterministic stable tie-break by document insertion order, truncated to
at most `limit` entries, each carrying a 1-based dense rank; and every
positively-scoring document appears whenever the candidate set fits the
limit. -/
theorem bm25_search_contract (idx : BM25Index) (db : String → Option Paper)
    (q : String) (limit : Nat) (hwf : WfIdx idx)
    (hdb : ∀ pid ∈ idx.paperIds, (db pid).isSome = true) :
    (tokenize q = [] → bm25Search idx db q limit = []) ∧
    (∀ h ∈ bm25Search idx db q limit, 0 < h.score) ∧
    (bm25Search idx db q limit).Pairwise
      (fun a b => b.score < a.score ∨ (a.score = b.score ∧ a.pos < b.pos)) ∧
    (bm25Search idx db q limit).length ≤ limit ∧
    (bm25Search idx db q limit).map (fun h => h.rank) =
      List.range' 1 (bm25Search idx db q limit).length ∧
    (∀ pos, pos < idx.documents.length → 0 < calculateBm25Score idx pos (tokenize q) →
      ((List.range idx.documents.length).filterMap (fun p' =>
        if 0 < calculateBm25Score idx p' (tokenize q) then
          some (p', calculateBm25Score idx p' (tokenize q))
        else none)).length ≤ limit →
      pos ∈ (bm25Search idx db q limit).map (fun h => h.pos)) := by
  by_cases hq : tokenize q = []
  · have hempty : bm25Search idx db q limit = [] := by
      unfold bm25Search
      rw [if_pos (by simp [hq])]
    rw [hempty]
    have hzero : ∀ pos : Nat, calculateBm25Score idx pos (tokenize q) = 0 := by
      intro pos
      rw [hq]
      rfl
    refine ⟨fun _ => rfl, by simp, List.Pairwise.nil, by simp, by simp, ?_⟩
    intro pos _ hpos _
    rw [hzero pos] at hpos
    exact absurd hpos (lt_irrefl 0)
  · rw [bm25Search_eq idx db q limit (by simp [hq])]
    set qts := tokenize q with hqts
    set scores := (List.range idx.documents.length).filterMap (fun pos =>
      if 0 < calculateBm25Score idx pos qts then
        some (pos, calculateBm25Score idx pos qts)
      else none) with hscores
    set sorted := sortDescBy (fun a b => decide (b.2 < a.2)) scores with hsorted
    set top := sorted.take limit with htop
    set fmap := (fun it : Nat × (Nat × ℝ) => (db (idx.paperIds.getD it.2.1 "")).map
      (fun p => SearchHit.mk it.2.1 p.id it.2.2 (it.1 + 1))) with hfmap
    set fin := top.enum.filterMap fmap with hfin
    have hsc : ∀ e ∈ scores, 0 < e.2 ∧ e.1 < idx.documents.length ∧
        e.2 = calculateBm25Score idx e.1 qts := by
      intro e he
      rcases List.mem_filterMap.mp he with ⟨pos, hpos, heq⟩
      by_cases h0 : 0 < calculateBm25Score idx pos qts
      · rw [if_pos h0] at heq
        obtain rfl := Option.some.inj heq
        exact ⟨h0, List.mem_range.mp hpos, rfl⟩
      · rw [if_neg h0] at heq
        exact absurd heq (by simp)
    have hmemtop : ∀ e ∈ top, e ∈ scores := by
      intro e he
      exact mem_sortDescBy.mp ((List.take_sublist limit sorted).subset he)
    have henumsnd : ∀ it ∈ top.enum, it.2 ∈ top := by
      intro it hit
      have h1 := List.mem_map_of_mem Prod.snd hit
      rwa [show top.enum = top.enumFrom 0 from rfl, List.enumFrom_map_snd] at h1
    have hex : ∀ it ∈ top.enum, ∃ b, fmap it = some b ∧
        b.pos = it.2.1 ∧ b.score = it.2.2 ∧ b.rank = it.1 + 1 := by
      intro it hit
      have hlt : it.2.1 < idx.paperIds.length := by
        rw [hwf.1]
        exact (hsc _ (hmemtop _ (henumsnd _ hit))).2.1
      have hpidmem : idx.paperIds.getD it.2.1 "" ∈ idx.paperIds := by
        rw [List.getD_eq_getElem?_getD, List.getElem?_eq_getElem hlt]
        exact List.getElem_mem hlt
      obtain ⟨p, hp⟩ := Option.isSome_iff_exists.mp (hdb _ hpidmem)
      refine ⟨SearchHit.mk it.2.1 p.id it.2.2 (it.1 + 1), ?_, rfl, rfl, rfl⟩
      rw [hfmap]
      simp only
      rw [hp]
      rfl
    have hmap_rank : fin.map (fun h => h.rank) = top.enum.map (fun it => it.1 + 1) := by
      refine filterMap_map_eq fmap _ _ top.enum ?_
      intro it hit
      obtain ⟨b, hb, _, _, hr⟩ := hex it hit
      exact ⟨b, hb, hr⟩
    have hrank2 : top.enum.map (fun it : Nat × (Nat × ℝ) => it.1 + 1) =
        List.range' 1 top.length := by
      have hcomp : (fun it : Nat × (Nat × ℝ) => it.1 + 1) =
          (fun n : Nat => 1 + n) ∘ Prod.fst := by
        funext it
        simp [Nat.add_comm]
      rw [hcomp, ← List.map_map, show top.enum = top.enumFrom 0 from rfl,
        List.enumFrom_map_fst, List.map_add_range']
    have hlenfin : fin.length = top.length := by
      have h1 := congrArg List.length (hmap_rank.trans hrank2)
      simpa using h1
    refine ⟨fun hc => absurd hc hq, ?_, ?_, ?_, ?_, ?_⟩
    · -- strictly positive scores
      intro h hh
      rcases List.mem_filterMap.mp hh with ⟨it, hit, heq⟩
      obtain ⟨b, hb, _, hscore, _⟩ := hex it hit
      rw [hb] at heq
      obtain rfl := Option.some.inj heq
      rw [hscore]
      exact (hsc _ (hmemtop _ (henumsnd _ hit))).1
    · -- sorted with stable tie-break
      have p1 : scores.Pairwise (fun a b => a.1 < b.1) := by
        refine List.Pairwise.filterMap _ ?_ (List.pairwise_lt_range _)
        intro a a' haa b hb b' hb'
        simp only [Option.mem_def] at hb hb'
        by_cases h0 : 0 < calculateBm25Score idx a qts
        · by_cases h0' : 0 < calculateBm25Score idx a' qts
          · rw [if_pos h0] at hb
            rw [if_pos h0'] at hb'
            obtain rfl := Option.some.inj hb
            obtain rfl := Option.some.inj hb'
            exact haa
          · rw [if_neg h0'] at hb'
            exact absurd hb' (by simp)
        · rw [if_neg h0] at hb
          exact absurd hb (by simp)
      have p2 : sorted.Pairwise (KeyRank Prod.snd Prod.fst) :=
        sortDescBy_sorted Prod.snd Prod.fst scores p1
      have p3 : top.Pairwise (KeyRank Prod.snd Prod.fst) :=
        p2.sublist (List.take_sublist limit sorted)
      have p4 : top.enum.Pairwise (fun a b => KeyRank Prod.snd Prod.fst a.2 b.2) := by
        refine List.pairwise_map.mp ?_
        rw [show top.enum = top.enumFrom 0 from rfl, List.enumFrom_map_snd]
        exact p3
      refine List.Pairwise.filterMap fmap ?_ p4
      intro it it' hR b hb b' hb'
      simp only [Option.mem_def, hfmap] at hb hb'
      rcases Option.map_eq_some'.mp hb with ⟨p, _, rfl⟩
      rcases Option.map_eq_some'.mp hb' with ⟨p', _, rfl⟩
      simp only [KeyRank] at hR
      exact hR
    · -- length bound
      calc fin.length = top.length := hlenfin
        _ ≤ limit := by
          rw [htop, List.length_take]
          exact Nat.min_le_left _ _
    · -- dense 1-based ranks
      rw [hmap_rank, hrank2, hlenfin]
    · -- completeness within the limit
      intro pos hposlt hpos hcnt
      have hscoreslen : scores.length ≤ limit := hcnt
      have hsortedlen : sorted.length = scores.length := (sortDescBy_perm _ _).length_eq
      have htop_eq : top = sorted := by
        rw [htop]
        exact List.take_of_length_le (by rw [hsortedlen]; exact hscoreslen)
      have hmemscores : (pos, calculateBm25Score idx pos qts) ∈ scores := by
        refine List.mem_filterMap.mpr ⟨pos, List.mem_range.mpr hposlt, ?_⟩
        rw [if_pos hpos]
      have hmemtop2 : (pos, calculateBm25Score idx pos qts) ∈ top := by
        rw [htop_eq]
        exact mem_sortDescBy.mpr hmemscores
      have hmap_pos : fin.map (fun h => h.pos) = top.enum.map (fun it => it.2.1) := by
        refine filterMap_map_eq fmap _ _ top.enum ?_
        intro it hit
        obtain ⟨b, hb, hp, _, _⟩ := hex it hit
        exact ⟨b, hb, hp⟩
      have hpos2 : top.enum.map (fun it : Nat × (Nat × ℝ) => it.2.1) =
          top.map (fun e => e.1) := by
        have hcomp : (fun it : Nat × (Nat × ℝ) => it.2.1) =
            (fun e : Nat × ℝ => e.1) ∘ Prod.snd := rfl
        rw [hcomp, ← List.map_map, show top.enum = top.enumFrom 0 from rfl,
          List.enumFrom_map_snd]
      rw [hmap_pos, hpos2]
      exact List.mem_map_of_mem _ hmemtop2

/-! ### C6 — weighted reciprocal rank fusion -/

theorem alookup_foldl_dictSet_notmem {K α V : Type} [DecidableEq K]
    (key : α → K) (val : α → V) :
    ∀ (l : List α) (d : List (K × V)) (k : K), k ∉ l.map key →
      alookup k (l.foldl (fun d x => dictSet (key x) (val x) d) d) = alookup k d := by
  intro l
  induction l with
  | nil => intro d k _; rfl
  | cons x rest ih =>
    intro d k hk
    rw [List.foldl_cons, ih _ _ (fun hc => hk (by simp [hc]))]
    exact alookup_dictSet_ne _ _ (fun hc => hk (by simp [hc]))

theorem keys_foldl_dictSet {K α V : Type} [DecidableEq K] (key : α → K) (val : α → V) :
    ∀ (l : List α) (d : List (K × V)), (l.map key).Nodup →
      (∀ k ∈ l.map key, k ∉ d.map Prod.fst) →
      ((l.foldl (fun d x => dictSet (key x) (val x) d) d).map Prod.fst) =
        d.map Prod.fst ++ l.map key := by
  intro l
  induction l with
  | nil => intro d _ _; simp
  | cons x rest ih =>
    intro d hnodup hfresh
    rw [List.map_cons, List.nodup_cons] at hnodup
    rw [List.foldl_cons,
      ih _ hnodup.2 ?_,
      keys_dictSet_of_absent _ (hfresh (key x) (by simp))]
    · simp
    · intro k hk
      rw [keys_dictSet_of_absent _ (hfresh (key x) (by simp))]
      simp only [List.mem_append, List.mem_singleton]
      push_neg
      exact ⟨hfresh k (by simp [hk]), fun hc => hnodup.1 (hc ▸ hk)⟩

theorem alookup_foldl_dictSet_mem {K α V : Type} [DecidableEq K] (key : α → K) (val : α → V) :
    ∀ (l : List α) (d : List (K × V)) (r : α), (l.map key).Nodup →
      (∀ k ∈ l.map key, k ∉ d.map Prod.fst) → r ∈ l →
      alookup (key r) (l.foldl (fun d x => dictSet (key x) (val x) d) d) = some (val r) := by
  intro l
  induction l with
  | nil => intro d r _ _ hr; simp at hr
  | cons x rest ih =>
    intro d r hnodup hfresh hr
    rw [List.map_cons, List.nodup_cons] at hnodup
    have hnodup' : (rest.map key).Nodup := hnodup.2
    have hxfresh : key x ∉ rest.map key := hnodup.1
    rcases List.mem_cons.mp hr with rfl | hrrest
    · rw [List.foldl_cons, alookup_foldl_dictSet_notmem key val rest _ _ hxfresh]
      exact alookup_dictSet_self _ _ _
    · rw [List.foldl_cons]
      refine ih _ r hnodup' ?_ hrrest
      intro k hk
      rw [keys_dictSet_of_absent _ (hfresh (key x) (by simp))]
      simp only [List.mem_append, List.mem_singleton]
      push_neg
      exact ⟨hfresh k (by simp [hk]), fun hc => hxfresh (hc ▸ hk)⟩

theorem insertDescBy_pairwise_le {α β : Type} [LinearOrder β] (key : α → β) (x : α) :
    ∀ acc : List α, acc.Pairwise (fun a b => key b ≤ key a) →
      (insertDescBy (fun a b => decide (key b < key a)) x acc).Pairwise
        (fun a b => key b ≤ key a) := by
  intro acc
  induction acc with
  | nil => intro _; simp [insertDescBy]
  | cons y ys ih =>
    intro hacc
    obtain ⟨hy, hys⟩ := List.pairwise_cons.mp hacc
    cases hgt : decide (key y < key x) with
    | true =>
      rw [insertDescBy, if_pos hgt]
      have hyx : key y < key x := of_decide_eq_true hgt
      refine List.pairwise_cons.mpr ⟨?_, hacc⟩
      intro z hz
      rcases List.mem_cons.mp hz with rfl | hzys
      · exact le_of_lt hyx
      · exact (hy z hzys).trans (le_of_lt hyx)
    | false =>
      rw [insertDescBy, if_neg (by simp [hgt])]
      have hxy : key x ≤ key y := le_of_not_lt (of_decide_eq_false hgt)
      refine List.pairwise_cons.mpr ⟨?_, ih hys⟩
      intro z hz
      have hz' : z = x ∨ z ∈ ys := by
        have := (insertDescBy_perm (fun a b => decide (key b < key a)) x ys).mem_iff.mp hz
        simpa using this
      rcases hz' with rfl | hzys
      · exact hxy
      · exact hy z hzys

theorem sortDescBy_sorted_le {α β : Type} [LinearOrder β] (key : α → β) :
    ∀ (l acc : List α), acc.Pairwise (fun a b => key b ≤ key a) →
      (l.foldl (fun acc x => insertDescBy (fun a b => decide (key b < key a)) x acc)
        acc).Pairwise (fun a b => key b ≤ key a) := by
  intro l
  induction l with
  | nil => intro acc hacc; exact hacc
  | cons x rest ih =>
    intro acc hacc
    rw [List.foldl_cons]
    exact ih _ (insertDescBy_pairwise_le key x acc hacc)

/-- C5 witness: the search contract applied to a concrete two-paper
index, database and query. -/
theorem bm25_search_contract_witness :
    (∀ h ∈ bm25Search (buildIndex [paperA, paperB] (6/5) (3/4)) dbAB "networks" 2,
      0 < h.score) ∧
    (bm25Search (buildIndex [paperA, paperB] (6/5) (3/4)) dbAB "networks" 2).length ≤ 2 :=
  ⟨(bm25_search_contract (buildIndex [paperA, paperB] (6/5) (3/4)) dbAB "networks" 2
      (wf_buildIndex [paperA, paperB] (6/5) (3/4)) (by decide)).2.1,
   (bm25_search_contract (buildIndex [paperA, paperB] (6/5) (3/4)) dbAB "networks" 2
      (wf_buildIndex [paperA, paperB] (6/5) (3/4)) (by decide)).2.2.2.1⟩

/-- Rank of an identifier in a candidate list as the specification words
it: the 1-based rank of its first occurrence, or `length + 1` when
absent. -/
def specRank (ids : List String) (pid : String) : Nat :=
  match ids.findIdx? (fun i => i = pid) with
  | some i => i + 1
  | none => ids.length + 1

/-- The hybrid fusion score exactly as the specification words it. -/
def specRrfScore (bmIds bertIds : List String) (w : ℚ) (pid : String) : ℚ :=
  1 / (60 + (specRank bmIds pid : ℚ)) + (1 / (60 + (specRank bertIds pid : ℚ))) * w

theorem specRank_of_notmem {ids : List String} {pid : String} (h : pid ∉ ids) :
    specRank ids pid = ids.length + 1 := by
  unfold specRank
  rw [List.findIdx?_eq_none_iff.mpr ?_]
  intro x hx
  simp only [decide_eq_false_iff_not]
  exact fun hc => h (hc ▸ hx)

theorem specRank_getElem {ids : List String} (hnodup : ids.Nodup) (i : Nat)
    (h : i < ids.length) : specRank ids (ids.get ⟨i, h⟩) = i + 1 := by
  unfold specRank
  have hfind : ids.findIdx? (fun x => x = ids.get ⟨i, h⟩) = some i := by
    rw [List.findIdx?_eq_some_iff_getElem]
    refine ⟨h, by simp [List.get_eq_getElem], ?_⟩
    intro j hji
    simp only [decide_eq_true_eq, List.get_eq_getElem]
    intro hc
    have := (@List.Nodup.getElem_inj_iff _ _ hnodup j (Nat.lt_trans hji h) i h).mp hc
    omega
  rw [hfind]

theorem bertLookupOf_eq {bertIds : List String} {bertDistances : List ℚ}
    (hlen : bertIds.length ≤ bertDistances.length) :
    bertLookupOf bertIds bertDistances =
      bertIds.enum.foldl
        (fun d it => dictSet it.2 (bertDistances.getD it.1 0, it.1 + 1) d) [] := by
  refine List.foldl_ext _ _ _ ?_
  intro d it hit
  have h1 : it.1 < bertIds.length := by
    have hm := List.mem_map_of_mem Prod.fst hit
    rw [show bertIds.enum = bertIds.enumFrom 0 from rfl, List.enumFrom_map_fst] at hm
    rcases List.mem_range'.mp hm with ⟨i, hi, he⟩
    omega
  rw [if_pos (Nat.lt_of_lt_of_le h1 hlen)]

theorem bm25LookupOf_keys {α : Type} {bm25Results : List (BmEntry α)}
    (hnodup : (bm25Results.map (fun r => r.paperId)).Nodup) :
    (bm25LookupOf bm25Results).map Prod.fst = bm25Results.map (fun r => r.paperId) := by
  have h := keys_foldl_dictSet (fun r : BmEntry α => r.paperId) (fun r => r) bm25Results []
    hnodup (by simp)
  simpa [bm25LookupOf] using h

theorem bertLookupOf_keys {bertIds : List String} {bertDistances : List ℚ}
    (hnodup : bertIds.Nodup) (hlen : bertIds.length ≤ bertDistances.length) :
    (bertLookupOf bertIds bertDistances).map Prod.fst = bertIds := by
  rw [bertLookupOf_eq hlen]
  have hsnd : bertIds.enum.map Prod.snd = bertIds := by
    rw [show bertIds.enum = bertIds.enumFrom 0 from rfl, List.enumFrom_map_snd]
  have h := keys_foldl_dictSet (fun it : Nat × String => it.2)
    (fun it => (bertDistances.getD it.1 0, it.1 + 1)) bertIds.enum []
    (by rw [hsnd]; exact hnodup) (by simp)
  simpa [hsnd] using h

theorem fuseOne_bm25Rank {α : Type} {bm25Results : List (BmEntry α)}
    (bertIds : List String) (bertDistances : List ℚ) (w : ℚ)
    (hranks : ∀ (i : Nat) (h : i < bm25Results.length), (bm25Results.get ⟨i, h⟩).rank = i + 1)
    (hnodup : (bm25Results.map (fun r => r.paperId)).Nodup) (pid : String) :
    (fuseOne bm25Results bertIds bertDistances w pid).bm25Rank =
      specRank (bm25Results.map (fun r => r.paperId)) pid := by
  by_cases hmem : pid ∈ bm25Results.map (fun r => r.paperId)
  · rcases List.mem_map.mp hmem with ⟨r, hr, rfl⟩
    rcases List.mem_iff_getElem.mp hr with ⟨i, hi, hgeti⟩
    have hlk : alookup r.paperId (bm25LookupOf bm25Results) = some r := by
      have := alookup_foldl_dictSet_mem (fun r : BmEntry α => r.paperId) (fun r => r)
        bm25Results [] r hnodup (by simp) hr
      simpa [bm25LookupOf] using this
    have hget : (bm25Results.map (fun r => r.paperId)).get
        ⟨i, by simpa using hi⟩ = r.paperId := by
      simp [List.get_eq_getElem, hgeti]
    rw [show (fuseOne bm25Results bertIds bertDistances w r.paperId).bm25Rank =
        ((alookup r.paperId (bm25LookupOf bm25Results)).map
          (fun e => e.rank)).getD (bm25Results.length + 1) from rfl, hlk]
    have hrrank : r.rank = i + 1 := by
      rw [← hgeti] at *
      exact hranks i hi
    rw [← hget, specRank_getElem hnodup]
    simpa using hrrank
  · have hlk : alookup pid (bm25LookupOf bm25Results) = none := by
      have := alookup_foldl_dictSet_notmem (fun r : BmEntry α => r.paperId) (fun r => r)
        bm25Results [] pid hmem
      simpa [bm25LookupOf, alookup] using this
    rw [show (fuseOne bm25Results bertIds bertDistances w pid).bm25Rank =
        ((alookup pid (bm25LookupOf bm25Results)).map
          (fun e => e.rank)).getD (bm25Results.length + 1) from rfl, hlk,
      specRank_of_notmem hmem]
    simp

theorem fuseOne_bertRank {α : Type} (bm25Results : List (BmEntry α))
    {bertIds : List String} {bertDistances : List ℚ} (w : ℚ)
    (hnodup : bertIds.Nodup) (hlen : bertIds.length ≤ bertDistances.length) (pid : String) :
    (fuseOne bm25Results bertIds bertDistances w pid).bertRank = specRank bertIds pid := by
  have hred : (fuseOne bm25Results bertIds bertDistances w pid).bertRank =
      ((alookup pid (bertLookupOf bertIds bertDistances)).map
        (fun e => e.2)).getD (bertIds.length + 1) := rfl
  have hsnd : bertIds.enum.map Prod.snd = bertIds := by
    rw [show bertIds.enum = bertIds.enumFrom 0 from rfl, List.enumFrom_map_snd]
  by_cases hmem : pid ∈ bertIds
  · rcases List.mem_iff_getElem.mp hmem with ⟨i, hi, hgeti⟩
    have hienum : i < bertIds.enum.length := by simpa using hi
    have helem : bertIds.enum.get ⟨i, hienum⟩ = (i, bertIds.get ⟨i, hi⟩) := by
      simp [List.get_eq_getElem, List.getElem_enumFrom]
    have hrenum : ((i, bertIds.get ⟨i, hi⟩) : Nat × String) ∈ bertIds.enum := by
      rw [← helem]
      exact List.get_mem _ _ _
    have hkey : (fun it : Nat × String => it.2) ((i, bertIds.get ⟨i, hi⟩) : Nat × String) =
        pid := by
      simp [List.get_eq_getElem, hgeti]
    have hlk : alookup pid (bertLookupOf bertIds bertDistances) =
        some (bertDistances.getD i 0, i + 1) := by
      rw [bertLookupOf_eq hlen]
      have h1 := alookup_foldl_dictSet_mem (fun it : Nat × String => it.2)
        (fun it => (bertDistances.getD it.1 0, it.1 + 1)) bertIds.enum []
        ((i, bertIds.get ⟨i, hi⟩) : Nat × String) (by rw [hsnd]; exact hnodup)
        (by simp) hrenum
      rw [hkey] at h1
      simpa using h1
    rw [hred, hlk]
    have hspec : specRank bertIds pid = i + 1 := by
      rw [← hkey]
      exact specRank_getElem hnodup i hi
    rw [hspec]
    rfl
  · have hlk : alookup pid (bertLookupOf bertIds bertDistances) = none := by
      rw [bertLookupOf_eq hlen]
      have h1 := alookup_foldl_dictSet_notmem (fun it : Nat × String => it.2)
        (fun it => (bertDistances.getD it.1 0, it.1 + 1)) bertIds.enum [] pid
        (by rw [hsnd]; exact hmem)
      simpa [alookup] using h1
    rw [hred, hlk, specRank_of_notmem hmem]
    rfl

/-- C6: rank fusion gives every identifier of the union of the two
candidate lists the hybrid score `1/(60+lexical_rank) +
(1/(60+semantic_rank))*bert_weight`, where a rank is the identifier's
1-based rank in its list or `list length + 1` when absent; the union is
sorted descending by hybrid score and truncated to the requested limit
(and is fully contained in the output when it fits the limit). -/
theorem combine_rrf_contract {α : Type} (bm25Results : List (BmEntry α))
    (bertIds : List String) (bertDistances : List ℚ) (limit : Nat) (w : ℚ)
    (hranks : ∀ (i : Nat) (h : i < bm25Results.length),
      (bm25Results.get ⟨i, h⟩).rank = i + 1)
    (hnodupB : (bm25Results.map (fun r => r.paperId)).Nodup)
    (hnodupS : bertIds.Nodup)
    (hlen : bertIds.length ≤ bertDistances.length) :
    (∀ c ∈ combineBm25AndBert bm25Results bertIds bertDistances limit w,
      c.hybridScore = specRrfScore (bm25Results.map (fun r => r.paperId)) bertIds w c.paperId ∧
      c.bm25Rank = specRank (bm25Results.map (fun r => r.paperId)) c.paperId ∧
      c.bertRank = specRank bertIds c.paperId ∧
      (c.paperId ∈ bm25Results.map (fun r => r.paperId) ∨ c.paperId ∈ bertIds)) ∧
    (combineBm25AndBert bm25Results bertIds bertDistances limit w).Pairwise
      (fun a b => b.hybridScore ≤ a.hybridScore) ∧
    (combineBm25AndBert bm25Results bertIds bertDistances limit w).length =
      min limit (allPapersOf bm25Results bertIds bertDistances).length ∧
    (∀ pid, (pid ∈ bm25Results.map (fun r => r.paperId) ∨ pid ∈ bertIds) →
      (allPapersOf bm25Results bertIds bertDistances).length ≤ limit →
      pid ∈ (combineBm25AndBert bm25Results bertIds bertDistances limit w).map
        (fun c => c.paperId)) ∧
    allPapersOf bm25Results bertIds bertDistances =
      (bm25Results.map (fun r => r.paperId)) ++
        bertIds.filter (fun i => !(bm25Results.map (fun r => r.paperId)).contains i) := by
  have hkeysB : ((bm25LookupOf bm25Results).map (fun e => e.1)) =
      bm25Results.map (fun r => r.paperId) := bm25LookupOf_keys hnodupB
  have hkeysS : ((bertLookupOf bertIds bertDistances).map (fun e => e.1)) = bertIds :=
    bertLookupOf_keys hnodupS hlen
  have hUnion : allPapersOf bm25Results bertIds bertDistances =
      (bm25Results.map (fun r => r.paperId)) ++
        bertIds.filter (fun i => !(bm25Results.map (fun r => r.paperId)).contains i) := by
    unfold allPapersOf
    rw [hkeysB, hkeysS]
  have hhyb : ∀ pid, (fuseOne bm25Results bertIds bertDistances w pid).hybridScore =
      specRrfScore (bm25Results.map (fun r => r.paperId)) bertIds w pid := by
    intro pid
    have h1 : (fuseOne bm25Results bertIds bertDistances w pid).hybridScore =
        1 / (60 + ((fuseOne bm25Results bertIds bertDistances w pid).bm25Rank : ℚ)) +
          (1 / (60 + ((fuseOne bm25Results bertIds bertDistances w pid).bertRank : ℚ))) * w :=
      rfl
    rw [h1, fuseOne_bm25Rank bertIds bertDistances w hranks hnodupB pid,
      fuseOne_bertRank bm25Results w hnodupS hlen pid]
    rfl
  have hsubset : ∀ c ∈ combineBm25AndBert bm25Results bertIds bertDistances limit w,
      ∃ pid ∈ allPapersOf bm25Results bertIds bertDistances,
        c = fuseOne bm25Results bertIds bertDistances w pid := by
    intro c hc
    have h1 : c ∈ sortDescBy (fun a b => decide (b.hybridScore < a.hybridScore))
        ((allPapersOf bm25Results bertIds bertDistances).map
          (fuseOne bm25Results bertIds bertDistances w)) :=
      (List.take_sublist _ _).subset hc
    have h2 := mem_sortDescBy.mp h1
    rcases List.mem_map.mp h2 with ⟨pid, hpid, rfl⟩
    exact ⟨pid, hpid, rfl⟩
  refine ⟨?_, ?_, ?_, ?_, hUnion⟩
  · intro c hc
    rcases hsubset c hc with ⟨pid, hpid, rfl⟩
    refine ⟨hhyb pid, fuseOne_bm25Rank bertIds bertDistances w hranks hnodupB pid,
      fuseOne_bertRank bm25Results w hnodupS hlen pid, ?_⟩
    rw [hUnion] at hpid
    rcases List.mem_append.mp hpid with h1 | h1
    · exact Or.inl h1
    · exact Or.inr (List.mem_of_mem_filter h1)
  · refine List.Pairwise.sublist (List.take_sublist _ _) ?_
    exact sortDescBy_sorted_le (fun c : Combined α => c.hybridScore) _ [] List.Pairwise.nil
  · unfold combineBm25AndBert
    rw [List.length_take, (sortDescBy_perm _ _).length_eq, List.length_map]
  · intro pid hpid hfit
    have hpidU : pid ∈ allPapersOf bm25Results bertIds bertDistances := by
      rw [hUnion]
      rcases hpid with h1 | h1
      · exact List.mem_append.mpr (Or.inl h1)
      · by_cases h2 : pid ∈ bm25Results.map (fun r => r.paperId)
        · exact List.mem_append.mpr (Or.inl h2)
        · refine List.mem_append.mpr (Or.inr (List.mem_filter.mpr ⟨h1, ?_⟩))
          simp only [Bool.not_eq_true']
          simpa using h2
    have hmemc : fuseOne bm25Results bertIds bertDistances w pid ∈
        combineBm25AndBert bm25Results bertIds bertDistances limit w := by
      unfold combineBm25AndBert
      rw [List.take_of_length_le (by
        rw [(sortDescBy_perm _ _).length_eq, List.length_map]
        exact hfit)]
      exact mem_sortDescBy.mpr (List.mem_map_of_mem _ hpidU)
    exact List.mem_map.mpr ⟨_, hmemc, rfl⟩

/-- C6 witness: the fusion contract applied to concrete candidate
lists (sortedness and truncation at a concrete input). -/
theorem combine_rrf_contract_witness :
    (combineBm25AndBert (α := ℚ)
        [⟨"pA", 2, 1⟩, ⟨"pB", 1, 2⟩] ["pB", "pC"] [1/10, 1/5] 10 2).Pairwise
      (fun a b => b.hybridScore ≤ a.hybridScore) ∧
    (combineBm25AndBert (α := ℚ)
        [⟨"pA", 2, 1⟩, ⟨"pB", 1, 2⟩] ["pB", "pC"] [1/10, 1/5] 10 2).length =
      min 10 (allPapersOf (α := ℚ)
        [⟨"pA", 2, 1⟩, ⟨"pB", 1, 2⟩] ["pB", "pC"] [1/10, 1/5]).length :=
  ⟨(combine_rrf_contract [⟨"pA", 2, 1⟩, ⟨"pB", 1, 2⟩] ["pB", "pC"] [1/10, 1/5] 10 2
      (by decide) (by decide) (by decide) (by decide)).2.1,
   (combine_rrf_contract [⟨"pA", 2, 1⟩, ⟨"pB", 1, 2⟩] ["pB", "pC"] [1/10, 1/5] 10 2
      (by decide) (by decide) (by decide) (by decide)).2.2.1⟩

/-! ### C7 — secondary-signal (citation) blending -/

theorem foldl_max_bounds :
    ∀ (l : List Int) (acc : Int), acc ≤ l.foldl max acc ∧ ∀ x ∈ l, x ≤ l.foldl max acc := by
  intro l
  induction l with
  | nil => intro acc; exact ⟨le_refl acc, by simp⟩
  | cons c cs ih =>
    intro acc
    rw [List.foldl_cons]
    refine ⟨le_trans (le_max_left acc c) (ih (max acc c)).1, ?_⟩
    intro x hx
    rcases List.mem_cons.mp hx with rfl | hxs
    · exact le_trans (le_max_right acc x) (ih (max acc x)).1
    · exact (ih (max acc c)).2 x hxs

theorem foldl_min_bounds :
    ∀ (l : List Int) (acc : Int), l.foldl min acc ≤ acc ∧ ∀ x ∈ l, l.foldl min acc ≤ x := by
  intro l
  induction l with
  | nil => intro acc; exact ⟨le_refl acc, by simp⟩
  | cons c cs ih =>
    intro acc
    rw [List.foldl_cons]
    refine ⟨le_trans (ih (min acc c)).1 (min_le_left acc c), ?_⟩
    intro x hx
    rcases List.mem_cons.mp hx with rfl | hxs
    · exact le_trans (ih (min acc x)).1 (min_le_right acc x)
    · exact (ih (min acc c)).2 x hxs

theorem le_maxCitationsOf {α : Type} {db : String → Option Paper}
    {combined : List (Combined α)} {c : Int} (h : c ∈ citationCountsOf db combined) :
    c ≤ maxCitationsOf db combined := by
  unfold maxCitationsOf
  cases hcc : citationCountsOf db combined with
  | nil => rw [hcc] at h; simp at h
  | cons c0 cs =>
    rw [hcc] at h
    rcases List.mem_cons.mp h with rfl | hcs
    · exact (foldl_max_bounds cs c).1
    · exact (foldl_max_bounds cs c0).2 c hcs

theorem minCitationsOf_le {α : Type} {db : String → Option Paper}
    {combined : List (Combined α)} {c : Int} (h : c ∈ citationCountsOf db combined) :
    minCitationsOf db combined ≤ c := by
  unfold minCitationsOf
  cases hcc : citationCountsOf db combined with
  | nil => rw [hcc] at h; simp at h
  | cons c0 cs =>
    rw [hcc] at h
    rcases List.mem_cons.mp h with rfl | hcs
    · exact (foldl_min_bounds cs c).1
    · exact (foldl_min_bounds cs c0).2 c hcs

theorem buildFinal_nCitation {α : Type} (mn mx : Int) (cw : ℚ) (r : Combined α) (p : Paper) :
    (buildFinal mn mx cw r p).nCitation = p.nCitation := by
  unfold buildFinal
  by_cases h : 1 ≤ cw
  · rw [if_pos h]
  · rw [if_neg h]

theorem buildFinal_paperId {α : Type} (mn mx : Int) (cw : ℚ) (r : Combined α) (p : Paper) :
    (buildFinal mn mx cw r p).paperId = p.id := by
  unfold buildFinal
  by_cases h : 1 ≤ cw
  · rw [if_pos h]
  · rw [if_neg h]

theorem buildFinal_norm {α : Type} (mn mx : Int) (cw : ℚ) (r : Combined α) (p : Paper) :
    (buildFinal mn mx cw r p).citationNormalized =
      if mn < mx then
        (((p.nCitation.getD 0 : Int) : ℚ) - (mn : ℚ)) / ((mx : ℚ) - (mn : ℚ))
      else 0 := by
  unfold buildFinal
  by_cases h : 1 ≤ cw
  · rw [if_pos h]
  · rw [if_neg h]

theorem buildFinal_citOnly {α : Type} (mn mx : Int) {cw : ℚ} (r : Combined α) (p : Paper)
    (h : 1 ≤ cw) :
    (buildFinal mn mx cw r p).score = ((p.nCitation.getD 0 : Int) : ℚ) ∧
    (buildFinal mn mx cw r p).searchType = "citation-only-sorting" := by
  unfold buildFinal
  rw [if_pos h]
  exact ⟨rfl, rfl⟩

theorem buildFinal_boost {α : Type} (mn mx : Int) {cw : ℚ} (r : Combined α) (p : Paper)
    (h : ¬ 1 ≤ cw) :
    (buildFinal mn mx cw r p).citationBoost =
      (buildFinal mn mx cw r p).citationNormalized * cw * (1/20) ∧
    (buildFinal mn mx cw r p).score =
      r.hybridScore + (buildFinal mn mx cw r p).citationBoost ∧
    (buildFinal mn mx cw r p).hybridScore = r.hybridScore ∧
    (buildFinal mn mx cw r p).searchType = "hybrid-bm25-bert-citations" := by
  unfold buildFinal
  rw [if_neg h]
  exact ⟨rfl, rfl, rfl, rfl⟩

/-- C7: citation blending — each final entry's citation count is min-max
normalized into `[0,1]` over the fetched result set (0 for all when all
counts are equal); with `citation_weight >= 1.0` the hybrid score is
discarded and the output is exactly the candidate set ordered by raw
citation count descending, for every fused input (hence independently of
`bert_weight`); otherwise `normalized * citation_weight * 0.05` is added
to the hybrid score and the results are re-sorted descending. -/
theorem citation_blend_contract {α : Type} (db : String → Option Paper)
    (combined : List (Combined α)) (cw : ℚ)
    (hres : ∀ r ∈ combined, (db r.paperId).isSome = true)
    (hid : ∀ r ∈ combined, ∀ p, db r.paperId = some p → p.id = r.paperId)
    (hcit : ∀ p ∈ fetchedPapersOf db combined, (p.nCitation).isSome = true) :
    (∀ e ∈ finalizeResults db combined cw,
      0 ≤ e.citationNormalized ∧ e.citationNormalized ≤ 1) ∧
    (finalizeResults db combined cw).Pairwise (fun a b => b.score ≤ a.score) ∧
    ((finalizeResults db combined cw).map (fun e => e.paperId)).Perm
      (combined.map (fun r => r.paperId)) ∧
    (1 ≤ cw → ∀ e ∈ finalizeResults db combined cw,
      e.score = ((e.nCitation.getD 0 : Int) : ℚ) ∧
      e.searchType = "citation-only-sorting") ∧
    (1 ≤ cw → (finalizeResults db combined cw).Pairwise
      (fun a b => b.nCitation.getD 0 ≤ a.nCitation.getD 0)) ∧
    (¬ 1 ≤ cw → ∀ e ∈ finalizeResults db combined cw,
      e.citationBoost = e.citationNormalized * cw * (1/20) ∧
      e.score = e.hybridScore + e.citationBoost ∧
      e.searchType = "hybrid-bm25-bert-citations") ∧
    (minCitationsOf db combined = maxCitationsOf db combined →
      ∀ e ∈ finalizeResults db combined cw, e.citationNormalized = 0) := by
  set mn := minCitationsOf db combined with hmn
  set mx := maxCitationsOf db combined with hmx
  set finalResults := combined.filterMap
    (fun r => (db r.paperId).map (buildFinal mn mx cw r)) with hfr
  have hout : finalizeResults db combined cw =
      sortDescBy (fun a b => decide (b.score < a.score)) finalResults := rfl
  have hmem : ∀ e ∈ finalizeResults db combined cw,
      ∃ r ∈ combined, ∃ p, db r.paperId = some p ∧ e = buildFinal mn mx cw r p := by
    intro e he
    rw [hout] at he
    rcases List.mem_filterMap.mp (mem_sortDescBy.mp he) with ⟨r, hr, heq⟩
    rcases Option.map_eq_some'.mp heq with ⟨p, hp, rfl⟩
    exact ⟨r, hr, p, hp, rfl⟩
  refine ⟨?_, ?_, ?_, ?_, ?_, ?_, ?_⟩
  · -- normalization bounds
    intro e he
    rcases hmem e he with ⟨r, hr, p, hp, rfl⟩
    have hpmem : p ∈ fetchedPapersOf db combined :=
      List.mem_filterMap.mpr ⟨r, hr, hp⟩
    obtain ⟨c, hc⟩ := Option.isSome_iff_exists.mp (hcit p hpmem)
    have hcmem : c ∈ citationCountsOf db combined :=
      List.mem_filterMap.mpr ⟨p, hpmem, hc⟩
    have hgetd : p.nCitation.getD 0 = c := by rw [hc]; rfl
    rw [buildFinal_norm, hgetd]
    by_cases hlt : mn < mx
    · rw [if_pos hlt]
      have h1 : (mn : ℚ) ≤ (c : ℚ) := by
        exact_mod_cast minCitationsOf_le hcmem
      have h2 : (c : ℚ) ≤ (mx : ℚ) := by
        exact_mod_cast le_maxCitationsOf hcmem
      have h3 : (0 : ℚ) < (mx : ℚ) - (mn : ℚ) := by
        have : (mn : ℚ) < (mx : ℚ) := by exact_mod_cast hlt
        linarith
      constructor
      · apply div_nonneg (by linarith) (le_of_lt h3)
      · rw [div_le_one h3]
        linarith
    · rw [if_neg hlt]
      exact ⟨le_refl 0, by norm_num⟩
  · -- sorted descending by final score
    rw [hout]
    exact sortDescBy_sorted_le (fun e : FinalEntry => e.score) _ [] List.Pairwise.nil
  · -- permutation of the candidate identifiers
    have h1 : (finalizeResults db combined cw).Perm finalResults := by
      rw [hout]
      exact sortDescBy_perm _ _
    refine (h1.map (fun e => e.paperId)).trans ?_
    have h2 : finalResults.map (fun e => e.paperId) =
        combined.map (fun r => r.paperId) := by
      refine filterMap_map_eq _ _ _ combined ?_
      intro r hr
      obtain ⟨p, hp⟩ := Option.isSome_iff_exists.mp (hres r hr)
      refine ⟨buildFinal mn mx cw r p, by rw [hp]; rfl, ?_⟩
      rw [buildFinal_paperId]
      exact hid r hr p hp
    rw [h2]
  · -- citation-only scoring
    intro hcw e he
    rcases hmem e he with ⟨r, hr, p, hp, rfl⟩
    have h1 := buildFinal_citOnly mn mx r p hcw
    refine ⟨?_, h1.2⟩
    rw [h1.1, buildFinal_nCitation]
  · -- citation-only ordering: raw citation count descending
    intro hcw
    have hsorted : (finalizeResults db combined cw).Pairwise (fun a b => b.score ≤ a.score) := by
      rw [hout]
      exact sortDescBy_sorted_le (fun e : FinalEntry => e.score) _ [] List.Pairwise.nil
    refine List.Pairwise.imp_of_mem ?_ hsorted
    intro a b ha hb hab
    rcases hmem a ha with ⟨ra, hra, pa, hpa, rfl⟩
    rcases hmem b hb with ⟨rb, hrb, pb, hpb, rfl⟩
    have h1 := (buildFinal_citOnly mn mx ra pa hcw).1
    have h2 := (buildFinal_citOnly mn mx rb pb hcw).1
    rw [buildFinal_nCitation, buildFinal_nCitation]
    rw [h1, h2] at hab
    exact_mod_cast hab
  · -- boosted hybrid scoring
    intro hcw e he
    rcases hmem e he with ⟨r, hr, p, hp, rfl⟩
    have h1 := buildFinal_boost mn mx r p hcw
    exact ⟨h1.1, by rw [h1.2.1, h1.2.2.1], h1.2.2.2⟩
  · -- all counts equal: normalized value 0 for all
    intro heq e he
    rcases hmem e he with ⟨r, hr, p, hp, rfl⟩
    rw [buildFinal_norm, if_neg (by rw [← hmn, ← hmx, heq] at *; exact lt_irrefl mx)]

/-- C7 witness: the blending contract applied to a concrete fused list
and database, in citation-only mode. -/
theorem citation_blend_contract_witness :
    (∀ e ∈ finalizeResults (α := ℚ) dbAB
        [⟨"pA", 1, none, none, 1, 3, 0, 0⟩, ⟨"pB", 2, none, none, 2, 1, 0, 0⟩] 1,
      0 ≤ e.citationNormalized ∧ e.citationNormalized ≤ 1) ∧
    (finalizeResults (α := ℚ) dbAB
        [⟨"pA", 1, none, none, 1, 3, 0, 0⟩, ⟨"pB", 2, none, none, 2, 1, 0, 0⟩] 1).Pairwise
      (fun a b => b.nCitation.getD 0 ≤ a.nCitation.getD 0) := by
  have h := citation_blend_contract (α := ℚ) dbAB
    [⟨"pA", 1, none, none, 1, 3, 0, 0⟩, ⟨"pB", 2, none, none, 2, 1, 0, 0⟩] 1
    (by decide)
    (by
      intro r hr p hp
      fin_cases hr <;> revert hp <;> simp [dbAB, paperA, paperB] <;> intro hp <;>
        simp [← hp])
    (by decide)
  exact ⟨h.1, h.2.2.2.2.1 (le_refl 1)⟩
